import Mathlib

/-!
Verification of the SH1106 OLED display driver (`src/lib/index.js`).

The driver is shallowly embedded: the mutable `Display` object becomes the
`Oled.DisplayState` structure, each method becomes a pure function from state
to state (and, for the sync protocol, to a trace of transport calls).
JavaScript numbers appearing in the algorithms are modelled exactly: integer
coordinates as `Int`, the fractional Bresenham error term as `Rat`, byte
values as `Nat` with explicit 32-bit / 8-bit masking where the code performs
bitwise operations.  `Buffer` (a `Uint8Array`) reads out of range yield
`undefined`, modelled as `Option.none`; out-of-range writes are dropped, as
in a typed array.  The `dirtyBytes` object keyed by non-negative integers is
modelled as an association list kept in ascending key order, matching the
enumeration order JavaScript defines for integer-indexed object keys.
-/

namespace Oled

/-- JavaScript `buf[i]` on a Node `Buffer`: `undefined` (here `none`) when the
index is out of range. -/
def getByte (buf : List Nat) (i : Int) : Option Nat :=
  if i < 0 then none else buf[i.toNat]?

/-- JavaScript `buf[i] = v` on a Node `Buffer`: out-of-range writes are
dropped (typed-array semantics); `List.set` already ignores indices past the
end. -/
def setByte (buf : List Nat) (i : Int) (v : Nat) : List Nat :=
  if i < 0 then buf else buf.set i.toNat v

/-- `Buffer.prototype.slice(start, stop)`: negative indices count from the
end, and both indices are clamped to the buffer length. -/
def jsSlice (buf : List Nat) (start stop : Int) : List Nat :=
  let len : Int := buf.length
  let a : Int := if start < 0 then max 0 (len + start) else min start len
  let b : Int := if stop < 0 then max 0 (len + stop) else min stop len
  ((buf.drop a.toNat).take (b - a).toNat)

/-- Column map of one dirty page: association list `column ↦ byte`, kept in
ascending column order (JavaScript integer-key enumeration order). -/
def updCols : List (Int × Nat) → Int → Nat → List (Int × Nat)
  | [], x, v => [(x, v)]
  | (k, w) :: rest, x, v =>
    if x = k then (k, v) :: rest
    else if x < k then (x, v) :: (k, w) :: rest
    else (k, w) :: updCols rest x v

/-- `this.dirtyBytes[page][x] = v` (creating the page entry when missing). -/
def dirtySet : List (Int × List (Int × Nat)) → Int → Int → Nat →
    List (Int × List (Int × Nat))
  | [], pg, x, v => [(pg, [(x, v)])]
  | (k, cs) :: rest, pg, x, v =>
    if pg = k then (k, updCols cs x v) :: rest
    else if pg < k then (pg, [(x, v)]) :: (k, cs) :: rest
    else (k, cs) :: dirtySet rest pg x v

/-- `delete this.dirtyBytes[page]`. -/
def deletePage : List (Int × List (Int × Nat)) → Int → List (Int × List (Int × Nat))
  | [], _ => []
  | (k, cs) :: rest, pg => if k = pg then rest else (k, cs) :: deletePage rest pg

/-- Read one recorded dirty byte, if present. -/
def lookupDirty (d : List (Int × List (Int × Nat))) (pg x : Int) : Option Nat :=
  match List.lookup pg d with
  | none => none
  | some cs => List.lookup x cs

/-- The mutable fields of the JavaScript `Display` object together with its
configuration (`this.Config`).  `clippedMethod` is the optional external
clipping predicate installed by `setClipped`; its two arguments are the
nullable `x` and `y` passed to `clipped`. -/
structure DisplayState where
  cols : Nat
  rows : Nat
  columnOffset : Nat
  lineSpacing : Int
  letterSpacing : Int
  clippedMethod : Option (Option Int → Option Int → Bool)
  buffer : List Nat
  dirtyBytes : List (Int × List (Int × Nat))
  cursorx : Int
  cursory : Int

/-- `Display.clipped(x, y)`: when an external clipping method is installed it
replaces the bounds check entirely; otherwise a non-null coordinate outside
the configured geometry is clipped. -/
def clipped (st : DisplayState) (ox oy : Option Int) : Bool :=
  match st.clippedMethod with
  | some m => m ox oy
  | none =>
    (match ox with
     | some x => decide (x < 0) || decide ((st.cols : Int) ≤ x)
     | none => false) ||
    (match oy with
     | some y => decide (y < 0) || decide ((st.rows : Int) ≤ y)
     | none => false)

/-- The constructor: buffer of `displayColumns * displayRows` zero bytes,
empty dirty set, cursor at the origin. -/
def mkDisplay (cols rows columnOffset : Nat) : DisplayState :=
  { cols := cols
    rows := rows
    columnOffset := columnOffset
    lineSpacing := 1
    letterSpacing := 1
    clippedMethod := none
    buffer := List.replicate (cols * rows) 0
    dirtyBytes := []
    cursorx := 0
    cursory := 0 }

/-- `Display.setCursor(x, y)`. -/
def setCursor (st : DisplayState) (x y : Int) : DisplayState :=
  { st with cursorx := x, cursory := y }

/-- `Display.clearBuffer()`: fill the buffer with zero, leaving the dirty set
alone. -/
def clearBuffer (st : DisplayState) : DisplayState :=
  { st with buffer := List.replicate st.buffer.length 0 }

/-- Body of the `pixels.forEach` loop of `Display.drawPixels`.  A pixel is
`(x, y, color)`; color `0` (or the string `BLACK`) clears the bit, a positive
color (or `WHITE`) sets it, and the masking `0xFFFFFFFF ^^^ pixelByte` is the
32-bit `~pixelByte` of JavaScript restricted to the byte values that occur. -/
def drawPixel1 (st : DisplayState) (p : Int × Int × Int) : DisplayState :=
  if clipped st (some p.1) (some p.2.1) then st
  else
    let bufferPage : Int := Int.fdiv p.2.1 8
    let pixelByte : Nat := 1 <<< (p.2.1 - 8 * bufferPage).toNat
    let bufferOffset : Int := p.1 + (st.cols : Int) * bufferPage
    let stored : Option Nat := getByte st.buffer bufferOffset
    let b1 : Option Nat :=
      if p.2.2 = 0 then some ((stored.getD 0) &&& (0xFFFFFFFF ^^^ pixelByte)) else stored
    let b2 : Option Nat :=
      if 0 < p.2.2 then some ((b1.getD 0) ||| pixelByte) else b1
    if stored ≠ b2 then
      { st with
        buffer := setByte st.buffer bufferOffset (b2.getD 0)
        dirtyBytes := dirtySet st.dirtyBytes bufferPage p.1 (b2.getD 0) }
    else st

/-- `Display.drawPixels(pixels)` on an array of pixels. -/
def drawPixels (st : DisplayState) (pixels : List (Int × Int × Int)) : DisplayState :=
  List.foldl drawPixel1 st pixels

theorem lookup_updCols_eq (cs : List (Int × Nat)) (x : Int) (v : Nat) :
    List.lookup x (updCols cs x v) = some v := by
  induction cs with
  | nil => simp [updCols, List.lookup]
  | cons h t ih =>
    obtain ⟨k, w⟩ := h
    by_cases hxk : x = k
    · subst hxk
      simp [updCols, List.lookup]
    · have hb : (x == k) = false := by simp [hxk]
      by_cases hlt : x < k
      · simp [updCols, hxk, hlt, List.lookup, hb]
      · simp [updCols, hxk, hlt, List.lookup, hb, ih]

theorem lookup_updCols_ne (cs : List (Int × Nat)) (x : Int) (v : Nat) (q : Int)
    (h : q ≠ x) : List.lookup q (updCols cs x v) = List.lookup q cs := by
  have hqx : (q == x) = false := by simp [h]
  induction cs with
  | nil => simp [updCols, List.lookup, hqx]
  | cons hd t ih =>
    obtain ⟨k, w⟩ := hd
    by_cases hxk : x = k
    · subst hxk
      simp [updCols, List.lookup, hqx]
    · by_cases hlt : x < k
      · simp [updCols, hxk, hlt, List.lookup, hqx]
      · simp [updCols, hxk, hlt, List.lookup, ih]

theorem lookup_none_of_forall_lt {β : Type} (l : List (Int × β)) (p : Int)
    (h : ∀ e ∈ l, p < e.1) : List.lookup p l = none := by
  induction l with
  | nil => simp [List.lookup]
  | cons hd t ih =>
    have h1 : p < hd.1 := h hd (by simp)
    have hb : (p == hd.1) = false := by simp; omega
    simp only [List.lookup, hb]
    exact ih fun e he => h e (by simp [he])

theorem lookupDirty_dirtySet_eq (d : List (Int × List (Int × Nat))) (pg x : Int) (v : Nat) :
    lookupDirty (dirtySet d pg x v) pg x = some v := by
  induction d with
  | nil => simp [dirtySet, lookupDirty, List.lookup, lookup_updCols_eq]
  | cons hd t ih =>
    obtain ⟨k, cs⟩ := hd
    by_cases hpk : pg = k
    · subst hpk
      simp [dirtySet, lookupDirty, List.lookup, lookup_updCols_eq]
    · have hb : (pg == k) = false := by simp [hpk]
      by_cases hlt : pg < k
      · simp [dirtySet, hpk, hlt, lookupDirty, List.lookup, hb]
      · simp only [dirtySet, if_neg hpk, if_neg hlt, lookupDirty, List.lookup, hb] at ih ⊢
        exact ih

theorem lookupDirty_dirtySet_ne (d : List (Int × List (Int × Nat))) (pg x : Int) (v : Nat)
    (p q : Int) (hsort : (d.map Prod.fst).Pairwise (· < ·))
    (h : ¬(p = pg ∧ q = x)) :
    lookupDirty (dirtySet d pg x v) p q = lookupDirty d p q := by
  by_cases hp : p = pg
  · subst hp
    have hq : q ≠ x := fun hq => h ⟨rfl, hq⟩
    have hbq : (q == x) = false := by simp [hq]
    induction d with
    | nil => simp [dirtySet, lookupDirty, List.lookup, hbq]
    | cons hd t ih =>
      obtain ⟨k, cs⟩ := hd
      simp only [List.map_cons, List.pairwise_cons] at hsort
      by_cases hpk : p = k
      · subst hpk
        simp [dirtySet, lookupDirty, List.lookup, lookup_updCols_ne _ _ _ _ hq]
      · have hb : (p == k) = false := by simp [hpk]
        by_cases hlt : p < k
        · have hnone : List.lookup p t = none := by
            apply lookup_none_of_forall_lt
            intro e he
            have := hsort.1 e.1 (List.mem_map_of_mem Prod.fst he)
            omega
          simp [dirtySet, hpk, hlt, lookupDirty, List.lookup, hb, hbq, hnone]
        · simp only [dirtySet, if_neg hpk, if_neg hlt, lookupDirty, List.lookup, hb]
          have := ih hsort.2
          simpa [lookupDirty] using this
  · -- different page: the lookup skips whatever dirtySet touched
    have hbp : (p == pg) = false := by simp [hp]
    induction d with
    | nil => simp [dirtySet, lookupDirty, List.lookup, hbp]
    | cons hd t ih =>
      obtain ⟨k, cs⟩ := hd
      simp only [List.map_cons, List.pairwise_cons] at hsort
      by_cases hpk : pg = k
      · subst hpk
        have hb : (p == pg) = false := by simp [hp]
        simp [dirtySet, lookupDirty, List.lookup, hb]
      · by_cases hlt : pg < k
        · have hb : (p == pg) = false := by simp [hp]
          simp [dirtySet, hpk, hlt, lookupDirty, List.lookup, hb]
        · simp only [dirtySet, if_neg hpk, if_neg hlt, lookupDirty, List.lookup]
          by_cases hpk2 : p = k
          · simp [hpk2]
          · have hb2 : (p == k) = false := by simp [hpk2]
            simp only [hb2]
            have := ih hsort.2
            simpa [lookupDirty] using this



theorem clipped_default_false (st : DisplayState) (x y : Int)
    (hm : st.clippedMethod = none)
    (hx0 : 0 ≤ x) (hx : x < (st.cols : Int)) (hy0 : 0 ≤ y) (hy : y < (st.rows : Int)) :
    clipped st (some x) (some y) = false := by
  simp only [clipped, hm]
  simp
  omega

/-- The byte value `drawPixels` computes for a stored byte `old`, a colour
`c` (`0` clears, positive sets) and a bit position. -/
def writtenByte (old : Nat) (c : Int) (bit : Nat) : Nat :=
  if c = 0 then old &&& (0xFFFFFFFF ^^^ (1 <<< bit)) else old ||| (1 <<< bit)

theorem writtenByte_testBit (old : Nat) (c : Int) (bit : Nat) (hbit : bit < 32)
    (hold : old < 256) (hc : c = 0 ∨ 0 < c) :
    ∀ b : Nat, (writtenByte old c bit).testBit b =
      if b = bit then decide (0 < c) else old.testBit b := by
  intro b
  have h1 : (1 <<< bit) = 2 ^ bit := by simp [Nat.shiftLeft_eq]
  have hmask : ∀ i, Nat.testBit 0xFFFFFFFF i = decide (i < 32) := by
    intro i
    have h := Nat.testBit_two_pow_sub_one 32 i
    norm_num at h
    exact h
  rcases hc with hc | hc
  · subst hc
    simp only [writtenByte, if_pos rfl, h1, Nat.testBit_and, Nat.testBit_xor,
      hmask, Nat.testBit_two_pow]
    by_cases hb : b = bit
    · subst hb
      simp [hbit, hmask]
    · by_cases h32 : b < 32
      · simp [h32, hb, Ne.symm hb, hmask]
      · have hz : old.testBit b = false := by
          apply Nat.testBit_lt_two_pow
          calc old < 256 := hold
            _ = 2 ^ 8 := by norm_num
            _ ≤ 2 ^ b := Nat.pow_le_pow_right (by norm_num) (by omega)
        simp [h32, hz, Ne.symm hb, hb, hmask]
  · have hc0 : ¬(c = 0) := by omega
    simp only [writtenByte, if_neg hc0, h1]
    by_cases hb : b = bit
    · subst hb
      simp [Nat.testBit_two_pow_self, hc]
    · simp [Nat.testBit_or, Nat.testBit_two_pow, Ne.symm hb, hb]

theorem drawPixel1_spec (st : DisplayState) (x y c : Int) (old : Nat)
    (hclip : clipped st (some x) (some y) = false)
    (hold : getByte st.buffer (x + (st.cols : Int) * y.fdiv 8) = some old)
    (hc : c = 0 ∨ 0 < c) :
    drawPixel1 st (x, y, c) =
      if writtenByte old c (y.emod 8).toNat = old then st
      else { st with
        buffer := setByte st.buffer (x + (st.cols : Int) * y.fdiv 8)
          (writtenByte old c (y.emod 8).toNat)
        dirtyBytes := dirtySet st.dirtyBytes (y.fdiv 8) x
          (writtenByte old c (y.emod 8).toNat) } := by
  have hbit : (y - 8 * y.fdiv 8).toNat = (y.emod 8).toNat := by
    rw [Int.fdiv_eq_ediv y (by norm_num)]
    change (y - 8 * (y / 8)).toNat = (y % 8).toNat
    omega
  simp only [drawPixel1, hclip, Bool.false_eq_true, if_false, hbit, hold]
  rcases hc with hc | hc
  · subst hc
    simp only [if_pos rfl, lt_self_iff_false, if_false, Option.getD_some, ne_eq,
      Option.some.injEq, writtenByte, if_pos rfl]
    by_cases hw : old &&& (0xFFFFFFFF ^^^ (1 <<< (y.emod 8).toNat)) = old
    · simp [hw]
    · simp [hw, Ne.symm hw]
  · have hc0 : ¬(c = 0) := by omega
    simp only [if_neg hc0, if_pos hc, Option.getD_some, ne_eq, Option.some.injEq,
      writtenByte]
    by_cases hw : old ||| (1 <<< (y.emod 8).toNat) = old
    · simp [hw]
    · simp [hw, Ne.symm hw]


/-- C2: for every in-bounds pixel `(x, y)` (under the default clip check) and
every prior state, drawing with a positive colour sets exactly bit
`y mod 8` of the byte at offset `x + displayColumns * floor(y / 8)` and
colour `0` clears exactly that bit; every other bit of that byte and every
other buffer byte are unchanged, and a dirty entry `(page, x) := newByte`
is recorded precisely when the resulting byte differs from the stored one. -/
theorem c2_pixel_exact_bit_and_dirty (st : DisplayState) (x y c : Int) (old : Nat)
    (hm : st.clippedMethod = none)
    (hx0 : 0 ≤ x) (hx : x < (st.cols : Int))
    (hy0 : 0 ≤ y) (hy : y < (st.rows : Int))
    (hbytes : ∀ b ∈ st.buffer, b < 256)
    (hsort : (st.dirtyBytes.map Prod.fst).Pairwise (· < ·))
    (hc : c = 0 ∨ 0 < c)
    (hold : getByte st.buffer (x + (st.cols : Int) * y.fdiv 8) = some old) :
    (∀ i : Nat, (drawPixels st [(x, y, c)]).buffer[i]? =
        if (i : Int) = x + (st.cols : Int) * y.fdiv 8
        then some (writtenByte old c (y.emod 8).toNat) else st.buffer[i]?)
    ∧ (∀ b : Nat, (writtenByte old c (y.emod 8).toNat).testBit b =
        if b = (y.emod 8).toNat then decide (0 < c) else old.testBit b)
    ∧ (writtenByte old c (y.emod 8).toNat = old → drawPixels st [(x, y, c)] = st)
    ∧ (writtenByte old c (y.emod 8).toNat ≠ old →
        lookupDirty (drawPixels st [(x, y, c)]).dirtyBytes (y.fdiv 8) x
            = some (writtenByte old c (y.emod 8).toNat)
        ∧ ∀ p q : Int, ¬(p = y.fdiv 8 ∧ q = x) →
            lookupDirty (drawPixels st [(x, y, c)]).dirtyBytes p q
              = lookupDirty st.dirtyBytes p q) := by
  have hclip := clipped_default_false st x y hm hx0 hx hy0 hy
  have hres : drawPixels st [(x, y, c)] = drawPixel1 st (x, y, c) := rfl
  have hspec := drawPixel1_spec st x y c old hclip hold hc
  have hoff0 : 0 ≤ x + (st.cols : Int) * y.fdiv 8 := by
    have h1 : 0 ≤ Int.fdiv y 8 := Int.fdiv_nonneg hy0 (by norm_num)
    have h2 : (0 : Int) ≤ (st.cols : Int) := Int.natCast_nonneg _
    have := mul_nonneg h2 h1
    omega
  have hgets : st.buffer[(x + (st.cols : Int) * y.fdiv 8).toNat]? = some old := by
    rw [getByte, if_neg (not_lt.mpr hoff0)] at hold
    exact hold
  have hlt : (x + (st.cols : Int) * y.fdiv 8).toNat < st.buffer.length :=
    (List.getElem?_eq_some_iff.mp hgets).1
  have hold256 : old < 256 := hbytes old (List.getElem?_mem hgets)
  have hbit32 : (y.emod 8).toNat < 32 := by
    have h1 : y.emod 8 < 8 := Int.emod_lt_of_pos y (by norm_num)
    have h2 : 0 ≤ y.emod 8 := Int.emod_nonneg y (by norm_num)
    omega
  refine ⟨?_, writtenByte_testBit old c _ hbit32 hold256 hc, ?_, ?_⟩
  · intro i
    rw [hres, hspec]
    by_cases hwold : writtenByte old c (y.emod 8).toNat = old
    · rw [if_pos hwold]
      by_cases hi : (i : Int) = x + (st.cols : Int) * y.fdiv 8
      · have hi2 : i = (x + (st.cols : Int) * y.fdiv 8).toNat := by omega
        rw [if_pos hi, hi2, hgets, hwold]
      · rw [if_neg hi]
    · rw [if_neg hwold]
      show (setByte st.buffer _ _)[i]? = _
      rw [setByte, if_neg (not_lt.mpr hoff0)]
      by_cases hi : (i : Int) = x + (st.cols : Int) * y.fdiv 8
      · have hi2 : i = (x + (st.cols : Int) * y.fdiv 8).toNat := by omega
        subst hi2
        rw [if_pos hi]
        exact List.getElem?_set_self hlt
      · have hi2 : (x + (st.cols : Int) * y.fdiv 8).toNat ≠ i := by omega
        rw [if_neg hi]
        exact List.getElem?_set_ne hi2
  · intro hwold
    rw [hres, hspec, if_pos hwold]
  · intro hwold
    rw [hres, hspec, if_neg hwold]
    exact ⟨lookupDirty_dirtySet_eq _ _ _ _,
      fun p q hpq => lookupDirty_dirtySet_ne _ _ _ _ _ _ hsort hpq⟩

/-- Witness for C2: drawing pixel `(1, 3)` with colour `1` on a fresh 4x8
display records the dirty byte `8 = 2 ^ 3` at page `0`, column `1`. -/
theorem c2_pixel_exact_bit_and_dirty_witness :
    lookupDirty (drawPixels (mkDisplay 4 8 0) [(1, 3, 1)]).dirtyBytes
        (Int.fdiv 3 8) 1 = some (writtenByte 0 1 (Int.emod 3 8).toNat)
    ∧ writtenByte 0 1 (Int.emod 3 8).toNat = 8 := by
  have h := c2_pixel_exact_bit_and_dirty (mkDisplay 4 8 0) 1 3 1 0 rfl
    (by decide) (by decide) (by decide) (by decide)
    (by intro b hb; simp [mkDisplay] at hb; omega)
    (by simp [mkDisplay])
    (Or.inr (by decide)) (by decide)
  exact ⟨(h.2.2.2 (by decide)).1, by decide⟩


/-- `Math.round`: rounds half toward positive infinity. -/
def jsRound (q : ℚ) : Int := ⌊q + 1 / 2⌋

/-- The `while (true)` loop of `Display.drawLine` (Bresenham).  Every loop
iteration pushes the current point, stops when the endpoint is reached, and
otherwise updates the error term and coordinates exactly as the source does
(`e2 > -dx` steps `x`, `e2 < dy` steps `y`).  The loop is given fuel and
returns `none` if the fuel runs out (`c10` proves it never does with the
fuel budget `dx + dy + 1` used by `drawLinePixels`). -/
def bresLoop (x1 y1 : Int) (dx dy : Int) (sx sy : Int) :
    Nat → Int → Int → ℚ → List (Int × Int) → Option (List (Int × Int))
  | 0, _, _, _, _ => none
  | fuel + 1, x0, y0, err, acc =>
    let acc2 := acc ++ [(x0, y0)]
    if x0 = x1 ∧ y0 = y1 then some acc2
    else
      let e2 := err
      let x0n := if e2 > -(dx : ℚ) then x0 + sx else x0
      let errn := if e2 > -(dx : ℚ) then err - dy else err
      let y0n := if e2 < (dy : ℚ) then y0 + sy else y0
      let errn2 := if e2 < (dy : ℚ) then errn + dx else errn
      bresLoop x1 y1 dx dy sx sy fuel x0n y0n errn2 acc2

/-- `Display.drawLine` up to the call of `drawPixels`: round the endpoints,
set up `dx`, `dy`, the step signs and the halved error term, then run the
loop.  The fuel `dx + dy + 1` is an upper bound on the iteration count. -/
def bresRun (qx0 qy0 qx1 qy1 : ℚ) : Option (List (Int × Int)) :=
  let x0 := jsRound qx0
  let y0 := jsRound qy0
  let x1 := jsRound qx1
  let y1 := jsRound qy1
  let dx := |x1 - x0|
  let dy := |y1 - y0|
  let sx : Int := if x0 < x1 then 1 else -1
  let sy : Int := if y0 < y1 then 1 else -1
  let err : ℚ := (if dy < dx then (dx : ℚ) else -(dy : ℚ)) / 2
  bresLoop x1 y1 dx dy sx sy (dx + dy + 1).toNat x0 y0 err []

/-- The pixel list `drawLine` accumulates in `linePixels`. -/
def drawLinePixels (qx0 qy0 qx1 qy1 : ℚ) : List (Int × Int) :=
  (bresRun qx0 qy0 qx1 qy1).getD []

/-- `Display.drawLine(x0, y0, x1, y1, color)`. -/
def drawLine (st : DisplayState) (qx0 qy0 qx1 qy1 : ℚ) (c : Int) : DisplayState :=
  drawPixels st ((drawLinePixels qx0 qy0 qx1 qy1).map (fun p => (p.1, p.2, c)))

/-- `Display.drawFillRect(x, y, w, h, color)`: one vertical `drawLine` per
column, `for (let i = x; i < x + w; i += 1)`; the loop body runs `⌈w⌉` times
(and not at all when `w ≤ 0`). -/
def drawFillRect (st : DisplayState) (x y w h : ℚ) (c : Int) : DisplayState :=
  (List.range (Int.toNat ⌈w⌉)).foldl
    (fun s (j : Nat) => drawLine s (x + (j : ℚ)) y (x + (j : ℚ)) (y + h - 1) c) st


theorem bres_xmajor (x1 y1 : Int) (dx dy : Int) (sx sy : Int)
    (hdxy : dy < dx) (hdy0 : 0 ≤ dy)
    (hsx : sx = 1 ∨ sx = -1) :
    ∀ (k : Nat) (fuel : Nat) (x0 y0 : Int) (m : Int) (err : ℚ) (acc : List (Int × Int)),
      k < fuel →
      x1 = x0 + (k : Int) * sx →
      y1 = y0 + m * sy →
      0 ≤ m →
      err = (dx : ℚ) / 2 + (k : ℚ) * (dy : ℚ) - (m : ℚ) * (dx : ℚ) →
      -((dx : ℚ) / 2) < err → err < (dx : ℚ) →
      ∃ ps, bresLoop x1 y1 dx dy sx sy fuel x0 y0 err acc = some ps ∧
        ps.getLast? = some (x1, y1) := by
  intro k
  have hdx1 : (1 : Int) ≤ dx := by omega
  have hdx1q : (1 : ℚ) ≤ (dx : ℚ) := by exact_mod_cast hdx1
  have hdy0q : (0 : ℚ) ≤ (dy : ℚ) := by exact_mod_cast hdy0
  have hdxyq : (dy : ℚ) < (dx : ℚ) := by exact_mod_cast hdxy
  induction k with
  | zero =>
    intro fuel x0 y0 m err acc hfuel hx1 hy1 hm herr hlo hhi
    have hmq : (0 : ℚ) ≤ (m : ℚ) := by exact_mod_cast hm
    have hm0 : m = 0 := by
      by_contra hne
      have hm1 : (1 : Int) ≤ m := by omega
      have hm1q : (1 : ℚ) ≤ (m : ℚ) := by exact_mod_cast hm1
      have : err ≤ -((dx : ℚ) / 2) := by
        rw [herr]
        push_cast
        nlinarith
      linarith
    subst hm0
    obtain ⟨f, rfl⟩ : ∃ f, fuel = f + 1 := ⟨fuel - 1, by omega⟩
    have hx0 : x0 = x1 := by omega
    have hy0 : y0 = y1 := by
      simp at hy1
      omega
    refine ⟨acc ++ [(x0, y0)], ?_, ?_⟩
    · simp [bresLoop, hx0, hy0]
    · rw [List.getLast?_concat, hx0, hy0]
  | succ n ih =>
    intro fuel x0 y0 m err acc hfuel hx1 hy1 hm herr hlo hhi
    obtain ⟨f, rfl⟩ : ∃ f, fuel = f + 1 := ⟨fuel - 1, by omega⟩
    have hne : ¬(x0 = x1 ∧ y0 = y1) := by
      rintro ⟨h1, h2⟩
      rcases hsx with rfl | rfl <;> omega
    have hcond1 : err > -(dx : ℚ) := by linarith
    by_cases hcond2 : err < (dy : ℚ)
    · have hm1 : (1 : Int) ≤ m := by
        by_contra hcon
        have hm0 : m = 0 := by omega
        subst hm0
        rw [herr] at hcond2
        push_cast at hcond2
        nlinarith
      have hm1q : (1 : ℚ) ≤ (m : ℚ) := by exact_mod_cast hm1
      have hstep := ih f (x0 + sx) (y0 + sy) (m - 1) (err - (dy : ℚ) + (dx : ℚ))
        (acc ++ [(x0, y0)]) (by omega)
        (by rw [hx1]; push_cast; ring)
        (by rw [hy1]; ring)
        (by omega)
        (by rw [herr]; push_cast; ring)
        (by linarith)
        (by linarith)
      obtain ⟨ps, hps, hlast⟩ := hstep
      refine ⟨ps, ?_, hlast⟩
      simp only [bresLoop, if_neg hne, if_pos hcond1, if_pos hcond2]
      exact hps
    · have hge : (dy : ℚ) ≤ err := not_lt.mp hcond2
      have hstep := ih f (x0 + sx) y0 m (err - (dy : ℚ))
        (acc ++ [(x0, y0)]) (by omega)
        (by rw [hx1]; push_cast; ring)
        hy1
        hm
        (by rw [herr]; push_cast; ring)
        (by linarith)
        (by linarith)
      obtain ⟨ps, hps, hlast⟩ := hstep
      refine ⟨ps, ?_, hlast⟩
      simp only [bresLoop, if_neg hne, if_pos hcond1, if_neg hcond2]
      exact hps


theorem bres_ymajor (x1 y1 : Int) (dx dy : Int) (sx sy : Int)
    (hdxy : dx < dy) (hdx0 : 0 ≤ dx)
    (hsy : sy = 1 ∨ sy = -1) :
    ∀ (m : Nat) (fuel : Nat) (x0 y0 : Int) (k : Int) (err : ℚ) (acc : List (Int × Int)),
      m < fuel →
      x1 = x0 + k * sx →
      y1 = y0 + (m : Int) * sy →
      0 ≤ k →
      err = (k : ℚ) * (dy : ℚ) - (m : ℚ) * (dx : ℚ) - (dy : ℚ) / 2 →
      -(dy : ℚ) < err → err < (dy : ℚ) / 2 →
      ∃ ps, bresLoop x1 y1 dx dy sx sy fuel x0 y0 err acc = some ps ∧
        ps.getLast? = some (x1, y1) := by
  intro m
  have hdy1 : (1 : Int) ≤ dy := by omega
  have hdy1q : (1 : ℚ) ≤ (dy : ℚ) := by exact_mod_cast hdy1
  have hdx0q : (0 : ℚ) ≤ (dx : ℚ) := by exact_mod_cast hdx0
  have hdxyq : (dx : ℚ) < (dy : ℚ) := by exact_mod_cast hdxy
  induction m with
  | zero =>
    intro fuel x0 y0 k err acc hfuel hx1 hy1 hk herr hlo hhi
    have hkq : (0 : ℚ) ≤ (k : ℚ) := by exact_mod_cast hk
    have hk0 : k = 0 := by
      by_contra hne
      have hk1 : (1 : Int) ≤ k := by omega
      have hk1q : (1 : ℚ) ≤ (k : ℚ) := by exact_mod_cast hk1
      have : (dy : ℚ) / 2 ≤ err := by
        rw [herr]
        push_cast
        nlinarith
      linarith
    subst hk0
    obtain ⟨f, rfl⟩ : ∃ f, fuel = f + 1 := ⟨fuel - 1, by omega⟩
    have hx0 : x0 = x1 := by
      simp at hx1
      omega
    have hy0 : y0 = y1 := by omega
    refine ⟨acc ++ [(x0, y0)], ?_, ?_⟩
    · simp [bresLoop, hx0, hy0]
    · rw [List.getLast?_concat, hx0, hy0]
  | succ n ih =>
    intro fuel x0 y0 k err acc hfuel hx1 hy1 hk herr hlo hhi
    obtain ⟨f, rfl⟩ : ∃ f, fuel = f + 1 := ⟨fuel - 1, by omega⟩
    have hne : ¬(x0 = x1 ∧ y0 = y1) := by
      rintro ⟨h1, h2⟩
      rcases hsy with rfl | rfl <;> omega
    have hcond2 : err < (dy : ℚ) := by linarith
    by_cases hcond1 : err > -(dx : ℚ)
    · -- the x coordinate also steps; this needs k ≥ 1
      have hk1 : (1 : Int) ≤ k := by
        by_contra hcon
        have hk0 : k = 0 := by omega
        subst hk0
        rw [herr] at hcond1
        push_cast at hcond1
        nlinarith
      have hk1q : (1 : ℚ) ≤ (k : ℚ) := by exact_mod_cast hk1
      have hstep := ih f (x0 + sx) (y0 + sy) (k - 1) (err - (dy : ℚ) + (dx : ℚ))
        (acc ++ [(x0, y0)]) (by omega)
        (by rw [hx1]; ring)
        (by rw [hy1]; push_cast; ring)
        (by omega)
        (by rw [herr]; push_cast; ring)
        (by linarith)
        (by linarith)
      obtain ⟨ps, hps, hlast⟩ := hstep
      refine ⟨ps, ?_, hlast⟩
      simp only [bresLoop, if_neg hne, if_pos hcond1, if_pos hcond2]
      exact hps
    · have hle : err ≤ -(dx : ℚ) := not_lt.mp hcond1
      have hstep := ih f x0 (y0 + sy) k (err + (dx : ℚ))
        (acc ++ [(x0, y0)]) (by omega)
        hx1
        (by rw [hy1]; push_cast; ring)
        hk
        (by rw [herr]; push_cast; ring)
        (by linarith)
        (by linarith)
      obtain ⟨ps, hps, hlast⟩ := hstep
      refine ⟨ps, ?_, hlast⟩
      simp only [bresLoop, if_neg hne, if_neg hcond1, if_pos hcond2]
      exact hps

theorem bres_diag (x1 y1 : Int) (d : Int) (sx sy : Int)
    (hd1 : 1 ≤ d) (hsx : sx = 1 ∨ sx = -1) :
    ∀ (k : Nat) (fuel : Nat) (x0 y0 : Int) (acc : List (Int × Int)),
      k < fuel →
      x1 = x0 + (k : Int) * sx →
      y1 = y0 + (k : Int) * sy →
      ∃ ps, bresLoop x1 y1 d d sx sy fuel x0 y0 (-(d : ℚ) / 2) acc = some ps ∧
        ps.getLast? = some (x1, y1) := by
  intro k
  have hd1q : (1 : ℚ) ≤ (d : ℚ) := by exact_mod_cast hd1
  induction k with
  | zero =>
    intro fuel x0 y0 acc hfuel hx1 hy1
    obtain ⟨f, rfl⟩ : ∃ f, fuel = f + 1 := ⟨fuel - 1, by omega⟩
    have hx0 : x0 = x1 := by omega
    have hy0 : y0 = y1 := by omega
    refine ⟨acc ++ [(x0, y0)], ?_, ?_⟩
    · simp [bresLoop, hx0, hy0]
    · rw [List.getLast?_concat, hx0, hy0]
  | succ n ih =>
    intro fuel x0 y0 acc hfuel hx1 hy1
    obtain ⟨f, rfl⟩ : ∃ f, fuel = f + 1 := ⟨fuel - 1, by omega⟩
    have hne : ¬(x0 = x1 ∧ y0 = y1) := by
      rintro ⟨h1, h2⟩
      rcases hsx with rfl | rfl <;> omega
    have hcond1 : (-(d : ℚ) / 2) > -(d : ℚ) := by linarith
    have hcond2 : (-(d : ℚ) / 2) < (d : ℚ) := by linarith
    have hstep := ih f (x0 + sx) (y0 + sy) (acc ++ [(x0, y0)]) (by omega)
      (by rw [hx1]; push_cast; ring)
      (by rw [hy1]; push_cast; ring)
    obtain ⟨ps, hps, hlast⟩ := hstep
    refine ⟨ps, ?_, hlast⟩
    simp only [bresLoop, if_neg hne, if_pos hcond1, if_pos hcond2]
    have harith : -(d : ℚ) / 2 - (d : ℚ) + (d : ℚ) = -(d : ℚ) / 2 := by ring
    rw [harith]
    exact hps


/-- C10: `drawLine` terminates on every input.  After rounding the endpoints
to integers, the Bresenham loop reaches the endpoint within the fuel budget
`dx + dy + 1`, the accumulated pixel list is finite with the endpoint last,
and `drawLine` is exactly `drawPixels` applied to that list. -/
theorem c10_drawLine_terminates (qx0 qy0 qx1 qy1 : ℚ) :
    ∃ ps, bresRun qx0 qy0 qx1 qy1 = some ps ∧
      drawLinePixels qx0 qy0 qx1 qy1 = ps ∧
      ps.getLast? = some (jsRound qx1, jsRound qy1) ∧
      ∀ (st : DisplayState) (c : Int),
        drawLine st qx0 qy0 qx1 qy1 c =
          drawPixels st (ps.map (fun p => (p.1, p.2, c))) := by
  suffices h : ∀ x0 y0 x1 y1 : Int, ∃ ps,
      bresLoop x1 y1 |x1 - x0| |y1 - y0| (if x0 < x1 then (1 : Int) else -1)
        (if y0 < y1 then (1 : Int) else -1) (|x1 - x0| + |y1 - y0| + 1).toNat x0 y0
        ((if |y1 - y0| < |x1 - x0| then ((|x1 - x0| : Int) : ℚ)
          else -(((|y1 - y0| : Int)) : ℚ)) / 2) []
        = some ps ∧ ps.getLast? = some (x1, y1) by
    obtain ⟨ps, hps, hlast⟩ := h (jsRound qx0) (jsRound qy0) (jsRound qx1) (jsRound qy1)
    have hrun : bresRun qx0 qy0 qx1 qy1 = some ps := hps
    have hdlp : drawLinePixels qx0 qy0 qx1 qy1 = ps := by
      rw [drawLinePixels, hrun]
      rfl
    refine ⟨ps, hrun, hdlp, hlast, ?_⟩
    intro st c
    rw [drawLine, hdlp]
  intro x0 y0 x1 y1
  have hdx0 : (0 : Int) ≤ |x1 - x0| := abs_nonneg _
  have hdy0 : (0 : Int) ≤ |y1 - y0| := abs_nonneg _
  have hsx : (if x0 < x1 then (1 : Int) else -1) = 1 ∨
      (if x0 < x1 then (1 : Int) else -1) = -1 := by
    split
    · exact Or.inl rfl
    · exact Or.inr rfl
  have hsy : (if y0 < y1 then (1 : Int) else -1) = 1 ∨
      (if y0 < y1 then (1 : Int) else -1) = -1 := by
    split
    · exact Or.inl rfl
    · exact Or.inr rfl
  have hxs : x1 = x0 + |x1 - x0| * (if x0 < x1 then (1 : Int) else -1) := by
    rcases abs_cases (x1 - x0) with ⟨h1, h2⟩ | ⟨h1, h2⟩ <;> rw [h1] <;> split <;> omega
  have hys : y1 = y0 + |y1 - y0| * (if y0 < y1 then (1 : Int) else -1) := by
    rcases abs_cases (y1 - y0) with ⟨h1, h2⟩ | ⟨h1, h2⟩ <;> rw [h1] <;> split <;> omega
  have hqx : ((|x1 - x0|.toNat : ℕ) : ℚ) = ((|x1 - x0| : ℤ) : ℚ) := by
    exact_mod_cast Int.toNat_of_nonneg hdx0
  have hqy : ((|y1 - y0|.toNat : ℕ) : ℚ) = ((|y1 - y0| : ℤ) : ℚ) := by
    exact_mod_cast Int.toNat_of_nonneg hdy0
  rcases lt_trichotomy |y1 - y0| |x1 - x0| with hlt | heq | hgt
  · -- x-major
    have hdx1 : (1 : Int) ≤ |x1 - x0| := by omega
    have hdx1q : (1 : ℚ) ≤ ((|x1 - x0| : Int) : ℚ) := by exact_mod_cast hdx1
    rw [if_pos hlt]
    apply bres_xmajor x1 y1 |x1 - x0| |y1 - y0|
      (if x0 < x1 then (1 : Int) else -1) (if y0 < y1 then (1 : Int) else -1)
      hlt hdy0 hsx (|x1 - x0|).toNat _ x0 y0 |y1 - y0| _ [] (by omega)
    · rw [Int.toNat_of_nonneg hdx0]
      exact hxs
    · exact hys
    · exact hdy0
    · rw [hqx]
      ring
    · linarith
    · linarith
  · -- diagonal
    rw [if_neg (show ¬(|y1 - y0| < |x1 - x0|) from by omega)]
    by_cases hz : |x1 - x0| = 0
    · have hzy : |y1 - y0| = 0 := by omega
      have ex1 : x1 = x0 := by
        have := abs_eq_zero.mp hz
        omega
      have ey1 : y1 = y0 := by
        have := abs_eq_zero.mp hzy
        omega
      subst ex1
      subst ey1
      refine ⟨[(x1, y1)], ?_, ?_⟩
      · simp [bresLoop, hz, hzy]
      · simp
    · have hd1 : (1 : Int) ≤ |x1 - x0| := by omega
      obtain ⟨ps, hps, hlast⟩ := bres_diag x1 y1 |x1 - x0|
        (if x0 < x1 then (1 : Int) else -1) (if y0 < y1 then (1 : Int) else -1)
        hd1 hsx (|x1 - x0|).toNat ((|x1 - x0| + |x1 - x0| + 1).toNat) x0 y0 []
        (by omega)
        (by rw [Int.toNat_of_nonneg hdx0]; exact hxs)
        (by rw [Int.toNat_of_nonneg hdx0, ← heq]; exact hys)
      refine ⟨ps, ?_, hlast⟩
      rw [heq]
      exact hps
  · -- y-major
    have hdy1 : (1 : Int) ≤ |y1 - y0| := by omega
    have hdy1q : (1 : ℚ) ≤ ((|y1 - y0| : Int) : ℚ) := by exact_mod_cast hdy1
    rw [if_neg (show ¬(|y1 - y0| < |x1 - x0|) from by omega)]
    apply bres_ymajor x1 y1 |x1 - x0| |y1 - y0|
      (if x0 < x1 then (1 : Int) else -1) (if y0 < y1 then (1 : Int) else -1)
      hgt hdx0 hsy (|y1 - y0|).toNat _ x0 y0 |x1 - x0| _ [] (by omega)
    · exact hxs
    · rw [Int.toNat_of_nonneg hdy0]
      exact hys
    · exact hdx0
    · rw [hqy]
      ring
    · linarith
    · linarith


/-- C6 (amended): `drawFillRect` with `w ≤ 0` draws nothing: the column loop
`for (let i = x; i < x + w; i += 1)` has no iterations, so the state is
returned untouched.  (With `h ≤ 0` but `w > 0` the code does draw: see the
counterexample.) -/
theorem c6_fillRect_nonpos_width_noop (st : DisplayState) (x y w h : ℚ) (c : Int)
    (hw : w ≤ 0) : drawFillRect st x y w h c = st := by
  have h1 : ⌈w⌉ ≤ (0 : ℤ) := Int.ceil_le.mpr (by exact_mod_cast hw)
  have h2 : Int.toNat ⌈w⌉ = 0 := by omega
  rw [drawFillRect, h2]
  rfl

/-- Witness for C6: a width-0 rectangle on a fresh display changes nothing. -/
theorem c6_fillRect_nonpos_width_noop_witness :
    drawFillRect (mkDisplay 4 8 0) 2 3 0 5 1 = mkDisplay 4 8 0 ∧ (0 : ℚ) ≤ 0 :=
  ⟨c6_fillRect_nonpos_width_noop (mkDisplay 4 8 0) 2 3 0 5 1 le_rfl, le_rfl⟩

/-- Counterexample to C6 as stated: `drawFillRect(0, 1, 1, 0, 5)` has
`h = 0 ≤ 0`, yet it draws.  Each column iteration calls
`drawLine(i, y, i, y + h - 1)`, and with `h = 0` that is an upward line from
row 1 to row 0 which sets bits 0 and 1 of the first buffer byte. -/
theorem c6_counterexample :
    (0 : ℚ) ≤ 0
    ∧ getByte (drawFillRect (mkDisplay 4 8 0) 0 1 1 0 5).buffer 0 = some 3
    ∧ getByte (mkDisplay 4 8 0).buffer 0 = some 0 := by
  have h : drawLinePixels 0 1 0 0 = [(0, 1), (0, 0)] := by
    norm_num [drawLinePixels, bresRun, jsRound, bresLoop]
  have h2 : drawFillRect (mkDisplay 4 8 0) 0 1 1 0 5
      = drawPixels (mkDisplay 4 8 0) [(0, 1, 5), (0, 0, 5)] := by
    have hceil : Int.toNat (⌈(1 : ℚ)⌉) = 1 := by norm_num
    rw [drawFillRect, hceil]
    show drawLine (mkDisplay 4 8 0) (0 + (0 : ℕ)) 1 (0 + (0 : ℕ)) (1 + 0 - 1) 5 = _
    norm_num [drawLine, h]
  refine ⟨le_rfl, ?_, by decide⟩
  rw [h2]
  decide


/-- One transport call: `sendCommand` with an array of command bytes or
`sendData` with a buffer of data bytes. -/
inductive Transfer where
  | command : List Int → Transfer
  | data : List Nat → Transfer
deriving DecidableEq

/-- The decimal string of a JavaScript object key (keys of `dirtyBytes` are
the decimal forms of the page and column numbers). -/
def intKeyChars (i : Int) : List Char :=
  if i < 0 then [Char.ofNat 45] ++ Nat.toDigits 10 (-i).toNat
  else Nat.toDigits 10 i.toNat

/-- Lexicographic comparison of strings by UTF-16 code unit, the default
`Array.prototype.sort()` comparator. -/
def charListLe : List Char → List Char → Bool
  | [], _ => true
  | _ :: _, [] => false
  | a :: as, b :: bs => if a = b then charListLe as bs else decide (a < b)

/-- `pages.sort()` / `columns.sort()` compare keys as strings. -/
def jsKeyLe (a b : Int) : Bool := charListLe (intKeyChars a) (intKeyChars b)

def insertKey (le : Int → Int → Bool) (a : Int) : List Int → List Int
  | [] => [a]
  | b :: bs => if le a b then a :: b :: bs else b :: insertKey le a bs

/-- Insertion sort (stable, as the JS sort is). -/
def sortKeys (le : Int → Int → Bool) : List Int → List Int
  | [] => []
  | a :: as => insertKey le a (sortKeys le as)

/-- `Math.min(...columns)` (the column keys coerce back to numbers). -/
def minKey : List Int → Int
  | [] => 0
  | a :: as => as.foldl min a

/-- `Math.max(...columns)`. -/
def maxKey : List Int → Int
  | [] => 0
  | a :: as => as.foldl max a

/-- Iterations of `for (let y = 0; y < this.Config.displayRows / 8; y++)`
with JavaScript real division: `⌈rows / 8⌉`. -/
def pagesCount (rows : Nat) : Nat := (rows + 7) / 8

/-- The loop of `Display.sendBuffer`: per page, the 3-command address header
(`set_page_address` starts at `0xB0 | 0` and is incremented after each page;
the low column command is `0x00 | columnOffset` and the high one `0x10 | 0`),
then the whole page row sliced from the buffer. -/
def sendBufferLoop (buf : List Nat) (cols : Nat) (lowCmd : Int) :
    Int → Nat → Nat → List Transfer
  | _, _, 0 => []
  | pageCmd, y, n + 1 =>
    Transfer.command [pageCmd, lowCmd, Int.lor 0x10 0x00] ::
    Transfer.data (jsSlice buf (y * cols) (y * cols + cols)) ::
    sendBufferLoop buf cols lowCmd (pageCmd + 1) (y + 1) n

/-- `Display.sendBuffer()`: a trace of transport calls plus the (unchanged)
state; the method assigns no instance field. -/
def sendBuffer (st : DisplayState) : List Transfer × DisplayState :=
  (sendBufferLoop st.buffer st.cols (Int.lor 0x00 (st.columnOffset : Int))
    (Int.lor 0xB0 0x00) 0 (pagesCount st.rows), st)

/-- The `if (columns.length)` body of one `updateDisplay` loop pass: emit the
address header for `minX + columnOffset` and the buffer range `[minX, maxX]`
of the page. -/
def pageSegment (buf : List Nat) (cols colOff : Nat) (pg : Int)
    (cmap : List (Int × Nat)) : List Transfer :=
  if cmap.isEmpty then []
  else
    let cs := cmap.map Prod.fst
    let minx := minKey cs
    let maxx := maxKey cs
    let columnAddr : Int := minx + (colOff : Int)
    let pageCmd : Int := Int.lor 0xB0 pg
    let lowCmd : Int := Int.lor 0x00 (Int.land columnAddr 0x0F)
    let highCmd : Int := Int.lor 0x10 (Int.shiftRight (Int.land columnAddr 0xF0) 4)
    let offset : Int := pg * (cols : Int) + minx
    [Transfer.command [pageCmd, lowCmd, highCmd],
      Transfer.data (jsSlice buf offset (offset + (maxx - minx) + 1))]

/-- The body of the `for (let pi = 0; ...)` loop of `Display.updateDisplay`:
for each page key, emit that page's segment, then delete the page entry. -/
def updateDisplayLoop (cols colOff : Nat) :
    List Int → DisplayState → List Transfer × DisplayState
  | [], st => ([], st)
  | pg :: rest, st =>
    let seg := pageSegment st.buffer cols colOff pg
      ((List.lookup pg st.dirtyBytes).getD [])
    let st2 := { st with dirtyBytes := deletePage st.dirtyBytes pg }
    let next := updateDisplayLoop cols colOff rest st2
    (seg ++ next.1, next.2)

/-- `Display.updateDisplay()`: collect the dirty page keys, sort them as
strings, early-return when there are none, and process each page. -/
def updateDisplay (st : DisplayState) : List Transfer × DisplayState :=
  let pages := sortKeys jsKeyLe (st.dirtyBytes.map Prod.fst)
  if pages.isEmpty then ([], st)
  else updateDisplayLoop st.cols st.columnOffset pages st


theorem jsSlice_length (buf : List Nat) (a b : Int)
    (ha : 0 ≤ a) (hab : a ≤ b) (hb : b ≤ (buf.length : Int)) :
    (jsSlice buf a b).length = (b - a).toNat := by
  simp only [jsSlice]
  rw [if_neg (by omega), if_neg (by omega)]
  simp only [List.length_take, List.length_drop]
  have h1 : a ⊓ (buf.length : Int) = a := by omega
  have h2 : b ⊓ (buf.length : Int) = b := by omega
  rw [h1, h2]
  omega

theorem sendBufferLoop_spec (buf : List Nat) (cols : Nat) (lowCmd : Int) :
    ∀ (n : Nat) (pageCmd : Int) (y0 : Nat),
      (sendBufferLoop buf cols lowCmd pageCmd y0 n).length = 2 * n ∧
      ∀ j : Nat, j < n →
        (sendBufferLoop buf cols lowCmd pageCmd y0 n)[2 * j]? =
          some (Transfer.command [pageCmd + (j : Int), lowCmd, Int.lor 0x10 0x00]) ∧
        (sendBufferLoop buf cols lowCmd pageCmd y0 n)[2 * j + 1]? =
          some (Transfer.data (jsSlice buf ((y0 + j) * cols) ((y0 + j) * cols + cols))) := by
  intro n
  induction n with
  | zero =>
    intro pageCmd y0
    exact ⟨rfl, fun j hj => absurd hj (by omega)⟩
  | succ m ih =>
    intro pageCmd y0
    constructor
    · have := (ih (pageCmd + 1) (y0 + 1)).1
      simp only [sendBufferLoop, List.length_cons, this]
      omega
    · intro j hj
      match j with
      | 0 =>
        simp [sendBufferLoop]
      | j2 + 1 =>
        obtain ⟨h2a, h2b⟩ := (ih (pageCmd + 1) (y0 + 1)).2 j2 (by omega)
        constructor
        · rw [show 2 * (j2 + 1) = (2 * j2 + 1) + 1 from by omega]
          simp only [sendBufferLoop, List.getElem?_cons_succ]
          rw [h2a]
          have harith : pageCmd + 1 + (j2 : Int) = pageCmd + ((j2 : Nat) + 1 : Nat) := by
            push_cast
            ring
          rw [harith]
        · rw [show 2 * (j2 + 1) + 1 = (2 * j2 + 1 + 1) + 1 from by omega]
          simp only [sendBufferLoop, List.getElem?_cons_succ]
          rw [h2b]
          have harith : ((y0 + 1 : Nat) : Int) + (j2 : Int) = ((y0 : Nat) : Int) + ((j2 + 1 : Nat) : Int) := by
            push_cast
            ring
          rw [harith]


/-- C5 (amended): for every configuration, `sendBuffer` emits, per page index
`y` of `0 .. ⌈displayRows / 8⌉ - 1` in ascending order, a 3-command header
whose page command is the page opcode `0xB0` plus `y` (equal to `0xB0 OR y`
whenever `y < 16`), whose first column command is `0x00 OR columnOffset`
taken over the whole offset, and whose second column command is the constant
`0x10`; the header is followed by exactly `displayColumns` buffer bytes of
that page.  When `columnOffset < 16` the two column commands coincide with
the low-nibble/high-nibble commands the original claim describes. -/
theorem c5_sendBuffer_structure (st : DisplayState)
    (hlen : st.buffer.length = st.cols * st.rows) :
    (sendBuffer st).1.length = 2 * pagesCount st.rows
    ∧ (∀ y : Nat, y < pagesCount st.rows →
        (sendBuffer st).1[2 * y]? =
          some (Transfer.command [Int.lor 0xB0 0x00 + (y : Int),
            Int.lor 0x00 (st.columnOffset : Int), Int.lor 0x10 0x00])
        ∧ (sendBuffer st).1[2 * y + 1]? =
          some (Transfer.data (jsSlice st.buffer (y * st.cols) (y * st.cols + st.cols)))
        ∧ (jsSlice st.buffer ((y : Int) * st.cols) ((y : Int) * st.cols + st.cols)).length
            = st.cols
        ∧ (y < 16 → Int.lor 0xB0 0x00 + (y : Int) = Int.lor 0xB0 (y : Int)))
    ∧ (st.columnOffset < 16 →
        Int.lor 0x00 (st.columnOffset : Int)
          = Int.lor 0x00 (Int.land (st.columnOffset : Int) 0x0F)
        ∧ Int.lor 0x10 0x00
          = Int.lor 0x10 (Int.shiftRight (Int.land (st.columnOffset : Int) 0xF0) 4)) := by
  have hspec := sendBufferLoop_spec st.buffer st.cols
    (Int.lor 0x00 (st.columnOffset : Int)) (pagesCount st.rows) (Int.lor 0xB0 0x00) 0
  refine ⟨hspec.1, ?_, ?_⟩
  · intro y hy
    obtain ⟨h1, h2⟩ := hspec.2 y hy
    refine ⟨h1, by simpa using h2, ?_, ?_⟩
    · rw [jsSlice_length st.buffer ((y : Int) * st.cols) ((y : Int) * st.cols + st.cols)
        (by positivity) (by omega) ?_]
      · omega
      · rw [hlen]
        have hy2 : (y : Int) + 1 ≤ (st.rows : Int) := by
          have : y + 1 ≤ pagesCount st.rows := hy
          have hp : pagesCount st.rows ≤ st.rows ∨ st.rows = 0 := by
            unfold pagesCount
            omega
          rcases hp with hp | hp
          · exact_mod_cast Nat.le_trans this hp
          · rw [hp] at this
            simp [pagesCount] at this
        push_cast
        nlinarith [Int.natCast_nonneg st.cols]
    · intro hy16
      have hb : (0xB0 : Int) + (y : Int) = Int.lor 0xB0 (y : Int) := by
        interval_cases y <;> decide
      simpa using hb
  · intro hoff
    constructor
    · have : Int.land (st.columnOffset : Int) 0x0F = (st.columnOffset : Int) := by
        have h16 : st.columnOffset < 16 := hoff
        interval_cases st.columnOffset <;> decide
      rw [this]
    · have : Int.shiftRight (Int.land (st.columnOffset : Int) 0xF0) 4 = 0 := by
        have h16 : st.columnOffset < 16 := hoff
        interval_cases st.columnOffset <;> decide
      rw [this]


/-- Counterexample to C5 as stated: with `columnOffset = 18` the emitted
header is `[0xB0, 18, 0x10]`.  The claim requires the first column command
to carry only the low nibble (`0x00 OR 2 = 2`) and the second the high
nibble (`0x10 OR 1 = 0x11`); the code instead ORs the whole offset into the
low command and always sends `0x10`. -/
theorem c5_counterexample :
    (sendBuffer (mkDisplay 1 8 18)).1
      = [Transfer.command [176, 18, 16], Transfer.data [0]]
    ∧ [(176 : Int), 18, 16]
      ≠ [Int.lor 0xB0 0x00, Int.lor 0x00 (Int.land (18 : Int) 0x0F),
          Int.lor 0x10 (Int.shiftRight (Int.land (18 : Int) 0xF0) 4)] := by
  constructor
  · decide
  · decide

/-- Witness for C5: on a 4x16 display with offset 2 the second page header
sits at trace index 2 and is `[0xB0 + 1, 0x00 OR 2, 0x10]`. -/
theorem c5_sendBuffer_structure_witness :
    (sendBuffer (mkDisplay 4 16 2)).1.length = 2 * pagesCount (mkDisplay 4 16 2).rows
    ∧ (sendBuffer (mkDisplay 4 16 2)).1[2]? =
        some (Transfer.command [Int.lor 0xB0 0x00 + (1 : Int),
          Int.lor 0x00 ((mkDisplay 4 16 2).columnOffset : Int), Int.lor 0x10 0x00]) := by
  have h := c5_sendBuffer_structure (mkDisplay 4 16 2) (by decide)
  refine ⟨h.1, ?_⟩
  have h2 := (h.2.1 1 (by decide)).1
  simpa using h2


theorem lookup_deletePage_ne (d : List (Int × List (Int × Nat))) (p q : Int)
    (h : q ≠ p) : List.lookup q (deletePage d p) = List.lookup q d := by
  induction d with
  | nil => rfl
  | cons hd t ih =>
    obtain ⟨k, cs⟩ := hd
    by_cases hk : k = p
    · subst hk
      have hb : (q == k) = false := by simp [h]
      simp [deletePage, List.lookup, hb]
    · simp only [deletePage, if_neg hk, List.lookup]
      by_cases hq : q = k
      · simp [hq]
      · have hb : (q == k) = false := by simp [hq]
        simp [hb, ih]

theorem deletePage_sublist (d : List (Int × List (Int × Nat))) (p : Int) :
    (deletePage d p).Sublist d := by
  induction d with
  | nil => simp [deletePage]
  | cons hd t ih =>
    obtain ⟨k, cs⟩ := hd
    by_cases hk : k = p
    · simp [deletePage, hk]
    · simp only [deletePage, if_neg hk]
      exact ih.cons₂ _

theorem mem_deletePage_key_ne (d : List (Int × List (Int × Nat))) (p : Int)
    (hnodup : (d.map Prod.fst).Nodup) :
    ∀ e ∈ deletePage d p, e.1 ≠ p := by
  induction d with
  | nil => simp [deletePage]
  | cons hd t ih =>
    obtain ⟨k, cs⟩ := hd
    simp only [List.map_cons, List.nodup_cons] at hnodup
    by_cases hk : k = p
    · subst hk
      intro e he
      simp only [deletePage, if_pos rfl] at he
      intro hep
      exact hnodup.1 (by
        rw [← hep]
        exact List.mem_map_of_mem Prod.fst he)
    · intro e he
      simp only [deletePage, if_neg hk, List.mem_cons] at he
      rcases he with rfl | he
      · exact hk
      · exact ih hnodup.2 e he

theorem lookup_eq_of_mem_nodup (d : List (Int × List (Int × Nat))) (pg : Int)
    (cmap : List (Int × Nat)) (hmem : (pg, cmap) ∈ d)
    (hnodup : (d.map Prod.fst).Nodup) :
    List.lookup pg d = some cmap := by
  induction d with
  | nil => simp at hmem
  | cons hd t ih =>
    obtain ⟨k, cs⟩ := hd
    simp only [List.map_cons, List.nodup_cons] at hnodup
    rcases List.mem_cons.mp hmem with he | he
    · rw [Prod.mk.injEq] at he
      obtain ⟨rfl, rfl⟩ := he.symm.imp Eq.symm Eq.symm
      simp [List.lookup]
    · have hkpg : pg ≠ k := by
        intro hc
        subst hc
        exact hnodup.1 (List.mem_map_of_mem Prod.fst he)
      have hb : (pg == k) = false := by simp [hkpg]
      simp only [List.lookup, hb]
      exact ih he hnodup.2

theorem mem_insertKey (le : Int → Int → Bool) (a x : Int) (l : List Int) :
    x ∈ insertKey le a l ↔ x = a ∨ x ∈ l := by
  induction l with
  | nil => simp [insertKey]
  | cons b bs ih =>
    simp only [insertKey]
    split
    · simp
    · simp only [List.mem_cons, ih]
      tauto

theorem mem_sortKeys (le : Int → Int → Bool) (x : Int) (l : List Int) :
    x ∈ sortKeys le l ↔ x ∈ l := by
  induction l with
  | nil => simp [sortKeys]
  | cons b bs ih =>
    simp only [sortKeys, mem_insertKey, ih, List.mem_cons]

theorem minKey_le (l : List Int) : ∀ x ∈ l, minKey l ≤ x := by
  have haux : ∀ (as : List Int) (a : Int),
      as.foldl min a ≤ a ∧ ∀ x ∈ as, as.foldl min a ≤ x := by
    intro as
    induction as with
    | nil => simp
    | cons b bs ih =>
      intro a
      constructor
      · calc bs.foldl min (min a b) ≤ min a b := (ih (min a b)).1
          _ ≤ a := min_le_left _ _
      · intro x hx
        rcases List.mem_cons.mp hx with rfl | hx
        · calc bs.foldl min (min a x) ≤ min a x := (ih _).1
            _ ≤ x := min_le_right _ _
        · exact (ih (min a b)).2 x hx
  intro x hx
  match l with
  | [] => simp at hx
  | a :: as =>
    rcases List.mem_cons.mp hx with rfl | hx
    · exact (haux as x).1
    · exact (haux as a).2 x hx

theorem le_maxKey (l : List Int) : ∀ x ∈ l, x ≤ maxKey l := by
  have haux : ∀ (as : List Int) (a : Int),
      a ≤ as.foldl max a ∧ ∀ x ∈ as, x ≤ as.foldl max a := by
    intro as
    induction as with
    | nil => simp
    | cons b bs ih =>
      intro a
      constructor
      · calc a ≤ max a b := le_max_left _ _
          _ ≤ bs.foldl max (max a b) := (ih (max a b)).1
      · intro x hx
        rcases List.mem_cons.mp hx with rfl | hx
        · calc x ≤ max a x := le_max_right _ _
            _ ≤ bs.foldl max (max a x) := (ih _).1
        · exact (ih (max a b)).2 x hx
  intro x hx
  match l with
  | [] => simp at hx
  | a :: as =>
    rcases List.mem_cons.mp hx with rfl | hx
    · exact (haux as x).1
    · exact (haux as a).2 x hx



theorem pageSegment_ne (buf : List Nat) (cols colOff : Nat) (pg : Int)
    (cmap : List (Int × Nat)) (hne : cmap ≠ []) :
    pageSegment buf cols colOff pg cmap =
      [Transfer.command [Int.lor 0xB0 pg,
          Int.lor 0x00 (Int.land (minKey (cmap.map Prod.fst) + (colOff : Int)) 0x0F),
          Int.lor 0x10 (Int.shiftRight
            (Int.land (minKey (cmap.map Prod.fst) + (colOff : Int)) 0xF0) 4)],
        Transfer.data (jsSlice buf (pg * (cols : Int) + minKey (cmap.map Prod.fst))
          (pg * (cols : Int) + minKey (cmap.map Prod.fst)
            + (maxKey (cmap.map Prod.fst) - minKey (cmap.map Prod.fst)) + 1))] := by
  rw [pageSegment, if_neg (by simpa using hne)]

theorem updateDisplayLoop_finds (cols colOff : Nat) :
    ∀ (pages : List Int) (st : DisplayState) (pg : Int) (cmap : List (Int × Nat)),
      pg ∈ pages →
      List.lookup pg st.dirtyBytes = some cmap →
      ∃ pre post, (updateDisplayLoop cols colOff pages st).1 =
        pre ++ pageSegment st.buffer cols colOff pg cmap ++ post := by
  intro pages
  induction pages with
  | nil =>
    intro st pg cmap hmem
    simp at hmem
  | cons p rest ih =>
    intro st pg cmap hmem hlook
    by_cases hp : p = pg
    · subst hp
      refine ⟨[], (updateDisplayLoop cols colOff rest
        { st with dirtyBytes := deletePage st.dirtyBytes p }).1, ?_⟩
      simp [updateDisplayLoop, hlook]
    · have hmem2 : pg ∈ rest := by
        rcases List.mem_cons.mp hmem with rfl | hmem2
        · exact absurd rfl hp
        · exact hmem2
      have hlook2 : List.lookup pg (deletePage st.dirtyBytes p) = some cmap := by
        rw [lookup_deletePage_ne _ _ _ (fun he => hp he.symm)]
        exact hlook
      obtain ⟨pre, post, hres⟩ := ih
        { st with dirtyBytes := deletePage st.dirtyBytes p } pg cmap hmem2 hlook2
      simp only at hres
      refine ⟨pageSegment st.buffer cols colOff p
        ((List.lookup p st.dirtyBytes).getD []) ++ pre, post, ?_⟩
      simp only [updateDisplayLoop]
      rw [hres]
      simp

theorem updateDisplayLoop_clears (cols colOff : Nat) :
    ∀ (pages : List Int) (st : DisplayState),
      (st.dirtyBytes.map Prod.fst).Nodup →
      (∀ e ∈ st.dirtyBytes, e.1 ∈ pages) →
      (updateDisplayLoop cols colOff pages st).2.dirtyBytes = [] := by
  intro pages
  induction pages with
  | nil =>
    intro st _ hall
    match hd : st.dirtyBytes with
    | [] => simp [updateDisplayLoop, hd]
    | e :: t =>
      have := hall e (by rw [hd]; exact List.mem_cons_self e t)
      simp at this
  | cons p rest ih =>
    intro st hnodup hall
    simp only [updateDisplayLoop]
    apply ih
    · exact ((deletePage_sublist st.dirtyBytes p).map Prod.fst).nodup hnodup
    · intro e he
      have hne := mem_deletePage_key_ne st.dirtyBytes p hnodup e he
      have hmem : e ∈ st.dirtyBytes := (deletePage_sublist st.dirtyBytes p).mem he
      have := hall e hmem
      rcases List.mem_cons.mp this with hc | hc
      · exact absurd hc hne
      · exact hc


theorem minKey_mem (l : List Int) (h : l ≠ []) : minKey l ∈ l := by
  have haux : ∀ (as : List Int) (a : Int), as.foldl min a = a ∨ as.foldl min a ∈ as := by
    intro as
    induction as with
    | nil => simp
    | cons b bs ih =>
      intro a
      rcases ih (min a b) with hc | hc
      · rcases min_choice a b with hm | hm
        · left
          rw [List.foldl_cons, hc, hm]
        · right
          rw [List.foldl_cons, hc, hm]
          exact List.mem_cons_self _ _
      · right
        exact List.mem_cons_of_mem _ hc
  match l with
  | [] => exact absurd rfl h
  | a :: as =>
    rcases haux as a with hc | hc
    · rw [show minKey (a :: as) = as.foldl min a from rfl, hc]
      exact List.mem_cons_self _ _
    · exact List.mem_cons_of_mem _ hc

theorem maxKey_mem (l : List Int) (h : l ≠ []) : maxKey l ∈ l := by
  have haux : ∀ (as : List Int) (a : Int), as.foldl max a = a ∨ as.foldl max a ∈ as := by
    intro as
    induction as with
    | nil => simp
    | cons b bs ih =>
      intro a
      rcases ih (max a b) with hc | hc
      · rcases max_choice a b with hm | hm
        · left
          rw [List.foldl_cons, hc, hm]
        · right
          rw [List.foldl_cons, hc, hm]
          exact List.mem_cons_self _ _
      · right
        exact List.mem_cons_of_mem _ hc
  match l with
  | [] => exact absurd rfl h
  | a :: as =>
    rcases haux as a with hc | hc
    · rw [show maxKey (a :: as) = as.foldl max a from rfl, hc]
      exact List.mem_cons_self _ _
    · exact List.mem_cons_of_mem _ hc

/-- C4: for every page whose dirty column set is non-empty, `updateDisplay`
emits the 3-command address header for column `minX + columnOffset` followed
by a data transfer of exactly `maxX - minX + 1` consecutive buffer bytes of
that page, and afterwards every dirty page entry has been deleted. -/
theorem c4_updateDisplay_page_span (st : DisplayState) (pg : Int)
    (cmap : List (Int × Nat))
    (hmem : (pg, cmap) ∈ st.dirtyBytes)
    (hne : cmap ≠ [])
    (hnodup : (st.dirtyBytes.map Prod.fst).Nodup)
    (hlen : st.buffer.length = st.cols * st.rows)
    (hpg0 : 0 ≤ pg) (hpgr : pg < (st.rows : Int))
    (hcols : ∀ e ∈ cmap, 0 ≤ e.1 ∧ e.1 < (st.cols : Int)) :
    (∃ pre post, (updateDisplay st).1 =
      pre ++
      [Transfer.command [Int.lor 0xB0 pg,
          Int.lor 0x00 (Int.land (minKey (cmap.map Prod.fst) + (st.columnOffset : Int)) 0x0F),
          Int.lor 0x10 (Int.shiftRight
            (Int.land (minKey (cmap.map Prod.fst) + (st.columnOffset : Int)) 0xF0) 4)],
        Transfer.data (jsSlice st.buffer
          (pg * (st.cols : Int) + minKey (cmap.map Prod.fst))
          (pg * (st.cols : Int) + minKey (cmap.map Prod.fst)
            + (maxKey (cmap.map Prod.fst) - minKey (cmap.map Prod.fst)) + 1))] ++ post)
    ∧ (jsSlice st.buffer
        (pg * (st.cols : Int) + minKey (cmap.map Prod.fst))
        (pg * (st.cols : Int) + minKey (cmap.map Prod.fst)
          + (maxKey (cmap.map Prod.fst) - minKey (cmap.map Prod.fst)) + 1)).length
      = (maxKey (cmap.map Prod.fst) - minKey (cmap.map Prod.fst) + 1).toNat
    ∧ (updateDisplay st).2.dirtyBytes = [] := by
  have hcs : cmap.map Prod.fst ≠ [] := by
    simpa using hne
  have hminmem := minKey_mem (cmap.map Prod.fst) hcs
  have hmaxmem := maxKey_mem (cmap.map Prod.fst) hcs
  obtain ⟨emin, heminmem, hemin⟩ := List.mem_map.mp hminmem
  obtain ⟨emax, hemaxmem, hemax⟩ := List.mem_map.mp hmaxmem
  have hmin0 : 0 ≤ minKey (cmap.map Prod.fst) := by
    rw [← hemin]
    exact (hcols emin heminmem).1
  have hmaxlt : maxKey (cmap.map Prod.fst) < (st.cols : Int) := by
    rw [← hemax]
    exact (hcols emax hemaxmem).2
  have hminmax : minKey (cmap.map Prod.fst) ≤ maxKey (cmap.map Prod.fst) :=
    le_maxKey _ _ hminmem
  have hlook := lookup_eq_of_mem_nodup _ _ _ hmem hnodup
  have hpgkeys : pg ∈ sortKeys jsKeyLe (st.dirtyBytes.map Prod.fst) :=
    (mem_sortKeys _ _ _).mpr (List.mem_map_of_mem Prod.fst hmem)
  have hnonempty : (sortKeys jsKeyLe (st.dirtyBytes.map Prod.fst)).isEmpty = false := by
    rcases hkeys : sortKeys jsKeyLe (st.dirtyBytes.map Prod.fst) with _ | ⟨a, as⟩
    · rw [hkeys] at hpgkeys
      simp at hpgkeys
    · rfl
  have hup : updateDisplay st =
      updateDisplayLoop st.cols st.columnOffset
        (sortKeys jsKeyLe (st.dirtyBytes.map Prod.fst)) st := by
    rw [updateDisplay]
    simp [hnonempty]
  have hoff0 : 0 ≤ pg * (st.cols : Int) + minKey (cmap.map Prod.fst) := by
    have := mul_nonneg hpg0 (Int.natCast_nonneg st.cols)
    omega
  have hstop : pg * (st.cols : Int) + minKey (cmap.map Prod.fst)
      + (maxKey (cmap.map Prod.fst) - minKey (cmap.map Prod.fst)) + 1
      ≤ (st.buffer.length : Int) := by
    rw [hlen]
    have h1 : (pg + 1) * (st.cols : Int) ≤ (st.rows : Int) * (st.cols : Int) :=
      mul_le_mul_of_nonneg_right (by omega) (Int.natCast_nonneg st.cols)
    have h2 : pg * (st.cols : Int) + (st.cols : Int) = (pg + 1) * (st.cols : Int) := by
      ring
    push_cast
    have h3 : (st.cols : Int) * (st.rows : Int) = (st.rows : Int) * (st.cols : Int) := by
      ring
    omega
  refine ⟨?_, ?_, ?_⟩
  · obtain ⟨pre, post, hres⟩ := updateDisplayLoop_finds st.cols st.columnOffset
      (sortKeys jsKeyLe (st.dirtyBytes.map Prod.fst)) st pg cmap hpgkeys hlook
    rw [pageSegment_ne _ _ _ _ _ hne] at hres
    exact ⟨pre, post, by rw [hup]; exact hres⟩
  · rw [jsSlice_length _ _ _ hoff0 (by omega) hstop]
    omega
  · rw [hup]
    apply updateDisplayLoop_clears _ _ _ _ hnodup
    intro e he
    exact (mem_sortKeys _ _ _).mpr (List.mem_map_of_mem Prod.fst he)


set_option maxRecDepth 4000 in
/-- Witness for C4: dirty columns `{2, 5, 9}` on page 0 transfer exactly
`9 - 2 + 1 = 8` bytes, not 3, and the dirty set is empty afterwards. -/
theorem c4_updateDisplay_page_span_witness :
    (jsSlice (drawPixels (mkDisplay 16 8 2) [(2, 0, 1), (5, 0, 1), (9, 1, 1)]).buffer
      ((0 : Int) * ((drawPixels (mkDisplay 16 8 2) [(2, 0, 1), (5, 0, 1), (9, 1, 1)]).cols : Int)
        + minKey (([(2, 1), (5, 1), (9, 2)] : List (Int × Nat)).map Prod.fst))
      ((0 : Int) * ((drawPixels (mkDisplay 16 8 2) [(2, 0, 1), (5, 0, 1), (9, 1, 1)]).cols : Int)
        + minKey (([(2, 1), (5, 1), (9, 2)] : List (Int × Nat)).map Prod.fst)
        + (maxKey (([(2, 1), (5, 1), (9, 2)] : List (Int × Nat)).map Prod.fst)
          - minKey (([(2, 1), (5, 1), (9, 2)] : List (Int × Nat)).map Prod.fst)) + 1)).length
      = 8
    ∧ (updateDisplay (drawPixels (mkDisplay 16 8 2)
        [(2, 0, 1), (5, 0, 1), (9, 1, 1)])).2.dirtyBytes = [] := by
  have h := c4_updateDisplay_page_span
    (drawPixels (mkDisplay 16 8 2) [(2, 0, 1), (5, 0, 1), (9, 1, 1)]) 0
    [(2, 1), (5, 1), (9, 2)]
    (by decide) (by decide) (by decide) (by decide) (by decide) (by decide) (by decide)
  exact ⟨h.2.1.trans (by decide), h.2.2⟩


/-- C9: `sendBuffer` only reads state.  The returned state is the input
state unchanged — buffer bytes, every dirty entry, and the cursor — because
the method assigns no instance field; consequently an immediately following
`updateDisplay` re-sends exactly what it would have sent before. -/
theorem c9_sendBuffer_reads_only (st : DisplayState) :
    (sendBuffer st).2 = st
    ∧ (sendBuffer st).2.buffer = st.buffer
    ∧ (∀ pg x : Int, lookupDirty (sendBuffer st).2.dirtyBytes pg x
        = lookupDirty st.dirtyBytes pg x)
    ∧ (sendBuffer st).2.cursorx = st.cursorx
    ∧ (sendBuffer st).2.cursory = st.cursory
    ∧ updateDisplay (sendBuffer st).2 = updateDisplay st :=
  ⟨rfl, rfl, fun _ _ => rfl, rfl, rfl, rfl⟩

/-- C8 (amended): from every state whose dirty set is empty, `sendBuffer`
followed immediately by `updateDisplay` makes `updateDisplay` issue zero
transport calls. -/
theorem c8_update_after_send_empty_dirty (st : DisplayState)
    (hdirty : st.dirtyBytes = []) :
    (updateDisplay (sendBuffer st).2).1 = [] := by
  show (updateDisplay st).1 = []
  rw [updateDisplay]
  simp [hdirty, sortKeys]

/-- Witness for C8: a freshly constructed display. -/
theorem c8_update_after_send_empty_dirty_witness :
    (updateDisplay (sendBuffer (mkDisplay 4 8 0)).2).1 = [] :=
  c8_update_after_send_empty_dirty (mkDisplay 4 8 0) rfl

/-- Counterexample to C8 as stated: draw one pixel (a reachable state with a
pending dirty entry), call `sendBuffer`, then `updateDisplay`: the update
still sends a command and a data transfer, because `sendBuffer` does not
clear the dirty set. -/
theorem c8_counterexample :
    (updateDisplay (sendBuffer (drawPixels (mkDisplay 4 8 0) [(0, 0, 1)])).2).1
      = [Transfer.command [176, 0, 16], Transfer.data [1]]
    ∧ [Transfer.command [(176 : Int), 0, 16], Transfer.data [1]] ≠ [] := by
  constructor
  · decide
  · decide


/-- An oled-js font definition: fixed glyph `width`/`height`, the character
lookup array, and the packed column-major bitmap blob. -/
structure FontDef where
  width : Nat
  height : Nat
  lookup : List Char
  fontData : List Nat

/-- A pngparse-style image: `channels ∈ {1, 2, 3, 4}`, `data` row-major and
interleaved per pixel. -/
structure ImageT where
  width : Nat
  height : Nat
  channels : Nat
  data : List Nat
deriving DecidableEq

/-- `Math.ceil(font.height / 8)`, the number of byte pages per glyph column. -/
def colPages (height : Nat) : Nat := (height + 7) / 8

/-- `(colPages * 8) % font.height`, the filler-bit count of the first page. -/
def padBits (height : Nat) : Nat := (colPages height * 8) % height

/-- The `idata` accumulated by `fontToImageMap` for the glyph at index `li`:
pages, then bits (skipping `b >= 8 - padBits` on page 0), then columns; each
surviving pixel pushes its state, and with `transparent` also an alpha byte. -/
def glyphData (font : FontDef) (transparent : Bool) (li : Nat) : List Nat :=
  let charBytes := colPages font.height * font.width
  let cdata := jsSlice font.fontData (li * charBytes) ((li + 1) * charBytes)
  (List.range (colPages font.height)).flatMap fun p =>
    (List.range 8).flatMap fun b =>
      if p = 0 ∧ 8 - padBits font.height ≤ b then []
      else
        let bitMask := 1 <<< b
        (List.range font.width).flatMap fun c =>
          let pixelState := if (cdata.getD (c + p * font.width) 0) &&& bitMask ≠ 0 then 1 else 0
          if transparent then [pixelState, if pixelState ≠ 0 then 0xFF else 0x00]
          else [pixelState]

/-- The glyph map produced by `Display.fontToImageMap` (the top-level
`width`/`height` fields plus one image per lookup character; a duplicated
lookup character keeps the last image, as a JS object assignment would). -/
structure FontIM where
  width : Nat
  height : Nat
  glyphs : List (Char × ImageT)

/-- `Display.fontToImageMap(font, transparent)`. -/
def fontToImageMap (font : FontDef) (transparent : Bool) : FontIM :=
  { width := font.width
    height := font.height
    glyphs := (List.range font.lookup.length).map fun li =>
      (font.lookup.getD li (Char.ofNat 0),
        { width := font.width
          height := font.height
          channels := if transparent then 2 else 1
          data := glyphData font transparent li }) }

/-- `fontIM[ch]`: JS property lookup (the last assignment wins). -/
def glyphFor (fim : FontIM) (ch : Char) : Option ImageT :=
  (fim.glyphs.reverse.find? (fun e => e.1 == ch)).map Prod.snd

theorem flatMap_const_length {α β : Type} (l : List α) (f : α → List β) (k : Nat)
    (h : ∀ a ∈ l, (f a).length = k) : (l.flatMap f).length = l.length * k := by
  induction l with
  | nil => simp
  | cons a t ih =>
    simp only [List.flatMap_cons, List.length_append, List.length_cons]
    rw [h a (List.mem_cons_self a t), ih (fun x hx => h x (List.mem_cons_of_mem a hx))]
    ring

theorem padBits_lt (h : Nat) (hh : 1 ≤ h) : padBits h < 8 := by
  unfold padBits colPages
  by_cases h8 : h < 8
  · exact lt_of_lt_of_le (Nat.mod_lt _ (by omega)) (by omega)
  · have hc1 : h ≤ (h + 7) / 8 * 8 := by omega
    have hc2 : (h + 7) / 8 * 8 < h + 8 := by omega
    have hmod : ((h + 7) / 8 * 8) % h = (h + 7) / 8 * 8 - h := by
      rw [Nat.mod_eq_sub_mod hc1]
      exact Nat.mod_eq_of_lt (by omega)
    omega


theorem glyphData_length (font : FontDef) (t : Bool) (li : Nat)
    (hh : 1 ≤ font.height) :
    (glyphData font t li).length
      = (if t then 2 else 1)
        * (font.width * (colPages font.height * 8 - padBits font.height)) := by
  have hpad := padBits_lt font.height hh
  have hc1 : 1 ≤ colPages font.height := by
    unfold colPages
    omega
  obtain ⟨d, hd⟩ : ∃ d, colPages font.height = d + 1 := ⟨colPages font.height - 1, by omega⟩
  unfold glyphData
  simp only []
  set ch := (if t then 2 else 1 : Nat) with hch
  set w := font.width with hw
  set pad := padBits font.height with hpd
  have hpix : ∀ (cd : List Nat) (p b c : Nat),
      ((if t
        then [if (cd.getD (c + p * w) 0) &&& (1 <<< b) ≠ 0 then 1 else 0,
          if (if (cd.getD (c + p * w) 0) &&& (1 <<< b) ≠ 0 then 1 else 0) ≠ 0
            then 0xFF else 0x00]
        else [if (cd.getD (c + p * w) 0) &&& (1 <<< b) ≠ 0 then 1 else 0]) : List Nat).length
      = ch := by
    intro cd p b c
    cases t <;> simp [hch]
  have hinner : ∀ (cd : List Nat) (p b : Nat),
      ((List.range w).flatMap fun c =>
        if t
        then [if (cd.getD (c + p * w) 0) &&& (1 <<< b) ≠ 0 then 1 else 0,
          if (if (cd.getD (c + p * w) 0) &&& (1 <<< b) ≠ 0 then 1 else 0) ≠ 0
            then 0xFF else 0x00]
        else [if (cd.getD (c + p * w) 0) &&& (1 <<< b) ≠ 0 then 1 else 0]).length
      = w * ch := by
    intro cd p b
    rw [flatMap_const_length _ _ ch (fun c _ => hpix cd p b c)]
    simp [List.length_range]
  have hrest : ∀ cd : List Nat, (((List.range d).map Nat.succ).flatMap fun p =>
      (List.range 8).flatMap fun b =>
        if p = 0 ∧ 8 - pad ≤ b then []
        else
          (List.range w).flatMap fun c =>
            if t
            then [if (cd.getD (c + p * w) 0) &&& (1 <<< b) ≠ 0 then 1 else 0,
              if (if (cd.getD (c + p * w) 0) &&& (1 <<< b) ≠ 0 then 1 else 0) ≠ 0
                then 0xFF else 0x00]
            else [if (cd.getD (c + p * w) 0) &&& (1 <<< b) ≠ 0 then 1 else 0]).length
      = d * (8 * (w * ch)) := by
    intro cd
    rw [flatMap_const_length _ _ (8 * (w * ch)) ?_]
    · simp [List.length_range]
    · intro p hp
      obtain ⟨k, _, rfl⟩ := List.mem_map.mp hp
      rw [flatMap_const_length _ _ (w * ch) ?_]
      · simp [List.length_range]
      · intro b _
        rw [if_neg (by omega)]
        exact hinner cd _ b
  have hzero : ∀ cd : List Nat, ((List.range 8).flatMap fun b =>
      if 0 = 0 ∧ 8 - pad ≤ b then []
      else
        (List.range w).flatMap fun c =>
          if t
          then [if (cd.getD (c + 0 * w) 0) &&& (1 <<< b) ≠ 0 then 1 else 0,
            if (if (cd.getD (c + 0 * w) 0) &&& (1 <<< b) ≠ 0 then 1 else 0) ≠ 0
              then 0xFF else 0x00]
          else [if (cd.getD (c + 0 * w) 0) &&& (1 <<< b) ≠ 0 then 1 else 0]).length
      = (8 - pad) * (w * ch) := by
    intro cd
    have hlen : ∀ b : Nat, ((if 0 = 0 ∧ 8 - pad ≤ b then ([] : List Nat)
        else
          (List.range w).flatMap fun c =>
            if t
            then [if (cd.getD (c + 0 * w) 0) &&& (1 <<< b) ≠ 0 then 1 else 0,
              if (if (cd.getD (c + 0 * w) 0) &&& (1 <<< b) ≠ 0 then 1 else 0) ≠ 0
                then 0xFF else 0x00]
            else [if (cd.getD (c + 0 * w) 0) &&& (1 <<< b) ≠ 0 then 1 else 0])).length
        = if 8 - pad ≤ b then 0 else w * ch := by
      intro b
      by_cases hb : 8 - pad ≤ b
      · rw [if_pos ⟨rfl, hb⟩, if_pos hb]
        rfl
      · rw [if_neg (by omega), if_neg hb]
        exact hinner cd 0 b
    show (List.flatten (List.map _ (List.range 8))).length = (8 - pad) * (w * ch)
    rw [List.length_flatten, List.map_map]
    have hmapc : List.map (List.length ∘ _) (List.range 8)
        = List.map (fun b => if 8 - pad ≤ b then 0 else w * ch) (List.range 8) :=
      List.map_congr_left (fun b _ => hlen b)
    rw [hmapc]
    have h8 : List.range 8 = [0, 1, 2, 3, 4, 5, 6, 7] := rfl
    rw [h8]
    interval_cases pad <;> simp <;> ring
  rw [hd, List.range_succ_eq_map, List.flatMap_cons, List.length_append, hzero, hrest]
  have harith : (d + 1) * 8 - pad = 8 * d + (8 - pad) := by omega
  rw [harith]
  ring

/-- Modelled from the claim and specification wording for comparison: the
glyph data if the first-page skip condition were `bit < 8 - padBits`
(the source skips `bit >= 8 - padBits`). -/
def glyphDataSpec (font : FontDef) (transparent : Bool) (li : Nat) : List Nat :=
  let charBytes := colPages font.height * font.width
  let cdata := jsSlice font.fontData (li * charBytes) ((li + 1) * charBytes)
  (List.range (colPages font.height)).flatMap fun p =>
    (List.range 8).flatMap fun b =>
      if p = 0 ∧ b < 8 - padBits font.height then []
      else
        let bitMask := 1 <<< b
        (List.range font.width).flatMap fun c =>
          let pixelState := if (cdata.getD (c + p * font.width) 0) &&& bitMask ≠ 0 then 1 else 0
          if transparent then [pixelState, if pixelState ≠ 0 then 0xFF else 0x00]
          else [pixelState]

/-- Counterexample to C3 as stated: a 1x7 font with the single glyph byte
`0x80`.  The source keeps bits `0..6` of the first page (skipping
`b >= 8 - padBits = 7`), producing seven zero rows; the claim's rule
(skip `b < 8 - padBits`) would keep only bit 7, producing a single row of
one pixel — so the claimed skip rule contradicts the code, and its glyph
would not have `height` rows. -/
theorem c3_counterexample :
    glyphData ⟨1, 7, ['A'], [0x80]⟩ false 0 = [0, 0, 0, 0, 0, 0, 0]
    ∧ glyphDataSpec ⟨1, 7, ['A'], [0x80]⟩ false 0 = [1]
    ∧ glyphData ⟨1, 7, ['A'], [0x80]⟩ false 0 ≠ glyphDataSpec ⟨1, 7, ['A'], [0x80]⟩ false 0
    ∧ (glyphDataSpec ⟨1, 7, ['A'], [0x80]⟩ false 0).length
        ≠ (⟨1, 7, ['A'], [0x80]⟩ : FontDef).height := by
  refine ⟨by decide, by decide, by decide, by decide⟩

/-- C3 (amended): `fontToImageMap` skips the `(page, bit)` combination
exactly when `page = 0` and `bit ≥ 8 - padBits`, so every glyph image holds
`pagesPerGlyph*8 - padBits` rows (times `width` columns and the channel
count), and that row count equals `height` whenever
`pagesPerGlyph * 8 < 2 * height` (every height except 1..4). -/
theorem c3_font_rows (font : FontDef) (t : Bool) (hh : 1 ≤ font.height) :
    (∀ g ∈ (fontToImageMap font t).glyphs,
        g.2.data.length
          = (if t then 2 else 1)
            * (font.width * (colPages font.height * 8 - padBits font.height)))
    ∧ (colPages font.height * 8 < 2 * font.height →
        colPages font.height * 8 - padBits font.height = font.height) := by
  constructor
  · intro g hg
    obtain ⟨li, _, rfl⟩ := List.mem_map.mp hg
    exact glyphData_length font t li hh
  · intro hlt
    have hc1 : font.height ≤ colPages font.height * 8 := by
      unfold colPages
      omega
    have hsub : padBits font.height = colPages font.height * 8 - font.height := by
      unfold padBits
      rw [Nat.mod_eq_sub_mod hc1]
      exact Nat.mod_eq_of_lt (by omega)
    omega

/-- Witness for C3: the 1x7 font; each glyph image has `1*7` data entries
and the row count equals the height. -/
theorem c3_font_rows_witness :
    (∀ g ∈ (fontToImageMap ⟨1, 7, ['A'], [0x80]⟩ false).glyphs,
        g.2.data.length
          = (if false then 2 else 1)
            * ((⟨1, 7, ['A'], [0x80]⟩ : FontDef).width * (colPages 7 * 8 - padBits 7)))
    ∧ (colPages 7 * 8 < 2 * 7 → colPages 7 * 8 - padBits 7 = 7) :=
  c3_font_rows ⟨1, 7, ['A'], [0x80]⟩ false (by decide)


/-- The JavaScript value held by the `dxxByte` working variable of
`drawImage`: `null`, `undefined` (a `Buffer` read out of range), or a
number. -/
inductive JSVal where
  | null : JSVal
  | undef : JSVal
  | num : Nat → JSVal
deriving DecidableEq

/-- Reading a buffer byte into a JS variable. -/
def jsValOfOpt : Option Nat → JSVal
  | none => JSVal.undef
  | some n => JSVal.num n

/-- `dxxByte |= pixelByte` (`ToInt32` of `null`/`undefined` is 0). -/
def jsOrByte (v : JSVal) (pb : Nat) : Nat :=
  match v with
  | JSVal.num n => n ||| pb
  | _ => pb

/-- `dxxByte &= ~pixelByte` in 32-bit arithmetic. -/
def jsAndNotByte (v : JSVal) (pb : Nat) : Nat :=
  match v with
  | JSVal.num n => n &&& (0xFFFFFFFF ^^^ pb)
  | _ => 0

/-- `dxxByte !== this.buffer[bufferOffset]` (strict inequality against a
possibly-`undefined` buffer read). -/
def jsStrictNeOpt (v : JSVal) (o : Option Nat) : Bool :=
  match v, o with
  | JSVal.num n, some m => decide (n ≠ m)
  | JSVal.num _, none => true
  | JSVal.undef, none => false
  | JSVal.undef, some _ => true
  | JSVal.null, _ => true

/-- The number a typed-array store coerces a JS value to (corners such as
storing `undefined` coerce to 0). -/
def jsValToNat : JSVal → Nat
  | JSVal.num n => n
  | _ => 0

/-- The inner row loop body of `Display.drawImage` for source column `x`
(destination column `dxx`) and row `y`; the accumulator carries the display
state and the working variables `page`, `dxxByte`, `bufferOffset`. -/
def drawImageRowStep (img : ImageT) (dy dxx : Int) (x : Nat) (y : Nat)
    (acc : DisplayState × Int × JSVal × Int) : DisplayState × Int × JSVal × Int :=
  let st := acc.1
  let page := acc.2.1
  let dxxByte := acc.2.2.1
  let bufferOffset := acc.2.2.2
  let dyy := dy + (y : Int)
  if clipped st none (some dyy) then acc
  else
    let dyyPage := Int.fdiv dyy 8
    let st2 :=
      if page < dyyPage ∧ dxxByte ≠ JSVal.null
          ∧ jsStrictNeOpt dxxByte (getByte st.buffer bufferOffset) then
        { st with buffer := setByte st.buffer bufferOffset (jsValToNat dxxByte)
                  dirtyBytes := dirtySet st.dirtyBytes page dxx (jsValToNat dxxByte) }
      else st
    let page2 := if page < dyyPage then dyyPage else page
    let bufferOffset2 :=
      if page < dyyPage then dyyPage * (st2.cols : Int) + dxx else bufferOffset
    let dxxByte2 :=
      if page < dyyPage then jsValOfOpt (getByte st2.buffer bufferOffset2) else dxxByte
    let imageOffset := img.width * img.channels * y + img.channels * x
    if (img.channels = 2 ∨ img.channels = 4)
        ∧ img.data.getD (imageOffset + (img.channels - 1)) 0 = 0 then
      (st2, page2, dxxByte2, bufferOffset2)
    else
      let pixelByte := 1 <<< (dyy - 8 * dyyPage).toNat
      let color :=
        if img.channels < 3 then img.data.getD imageOffset 0
        else if img.data.getD imageOffset 0 ≠ 0 then img.data.getD imageOffset 0
        else if img.data.getD (imageOffset + 1) 0 ≠ 0 then img.data.getD (imageOffset + 1) 0
        else img.data.getD (imageOffset + 2) 0
      let dxxByte3 :=
        if color ≠ 0 then JSVal.num (jsOrByte dxxByte2 pixelByte)
        else JSVal.num (jsAndNotByte dxxByte2 pixelByte)
      (st2, page2, dxxByte3, bufferOffset2)

/-- The outer column loop body of `Display.drawImage`: clip the column, run
the rows with `page = -1`, then flush the final working byte and reset
`dxxByte` to `null` (`bufferOffset` persists across columns, as in the
source). -/
def drawImageColStep (img : ImageT) (dx dy : Int) (acc : DisplayState × JSVal × Int)
    (x : Nat) : DisplayState × JSVal × Int :=
  let st := acc.1
  let dxxByte0 := acc.2.1
  let bufferOffset0 := acc.2.2
  let dxx := dx + (x : Int)
  if clipped st (some dxx) none then acc
  else
    let res := (List.range img.height).foldl
      (fun a y => drawImageRowStep img dy dxx x y a) (st, -1, dxxByte0, bufferOffset0)
    let st1 := res.1
    let page := res.2.1
    let dxxByte := res.2.2.1
    let bufferOffset := res.2.2.2
    let st2 :=
      if dxxByte ≠ JSVal.null
          ∧ jsStrictNeOpt dxxByte (getByte st1.buffer bufferOffset) then
        { st1 with buffer := setByte st1.buffer bufferOffset (jsValToNat dxxByte)
                   dirtyBytes := dirtySet st1.dirtyBytes page dxx (jsValToNat dxxByte) }
      else st1
    (st2, JSVal.null, bufferOffset)

/-- `Display.drawImage(dx, dy, image)`. -/
def drawImage (st : DisplayState) (dx dy : Int) (img : ImageT) : DisplayState :=
  ((List.range img.width).foldl (drawImageColStep img dx dy) (st, JSVal.null, 0)).1


/-- `str.split(' ')` on a character list. -/
def splitAux : List Char → List Char → List (List Char)
  | [], cur => [cur.reverse]
  | c :: rest, cur =>
    if c = ' ' then cur.reverse :: splitAux rest [] else splitAux rest (c :: cur)

/-- `Display.drawString`'s `str.split(' ')`. -/
def splitSpaces (cs : List Char) : List (List Char) := splitAux cs []

/-- The per-character body of `drawString`: a newline breaks the line, a
character present in the font map is blitted and (for non-transparent
glyphs) followed by the two spacing-erase rectangles, the column advances by
`width + letterSpacing`, and with wrapping a line break is forced when the
column reaches `displayColumns - width`.  Characters absent from the map are
skipped.  The accumulator is the state plus `colOffset`. -/
def drawStringChar (fIM : FontIM) (wrap : Bool) (acc : DisplayState × Int)
    (ch : Char) : DisplayState × Int :=
  let st := acc.1
  let colOffset := acc.2
  if ch = Char.ofNat 10 then
    (setCursor st 0 (st.cursory + (fIM.height : Int) + st.lineSpacing), 0)
  else
    match glyphFor fIM ch with
    | none => (st, colOffset)
    | some charImage =>
      let st := drawImage st colOffset st.cursory charImage
      let st :=
        if charImage.channels ≠ 2 ∧ charImage.channels ≠ 4 then
          let st := drawFillRect st (colOffset : ℚ)
            ((st.cursory + (charImage.height : Int) + 1 : Int) : ℚ)
            ((charImage.width : Nat) : ℚ) ((st.lineSpacing : Int) : ℚ) 0
          drawFillRect st ((colOffset + (charImage.width : Int) + 1 : Int) : ℚ)
            ((st.cursory : Int) : ℚ) ((st.letterSpacing : Int) : ℚ)
            (((charImage.height : Int) + st.lineSpacing : Int) : ℚ) 0
        else st
      let colOffset := colOffset + (charImage.width : Int) + st.letterSpacing
      if wrap ∧ (st.cols : Int) - (fIM.width : Int) ≤ colOffset then
        (setCursor { st with cursory := st.cursory + (fIM.height : Int) + st.lineSpacing }
          0 (st.cursory + (fIM.height : Int) + st.lineSpacing), 0)
      else
        (setCursor st colOffset st.cursory, colOffset)

/-- One pass of the word loop of `drawString`: wrap before the word when
enabled, the word is not the first, the column is positive, and the word's
worst-case width overflows the display; then re-append the split-off space
(unless this is the last word and it is non-empty) and draw the
characters. -/
def drawStringWord (fIM : FontIM) (wrap : Bool) (first isLast : Bool)
    (word : List Char) (acc : DisplayState × Int) : DisplayState × Int :=
  let st := acc.1
  let colOffset := acc.2
  let acc2 :=
    if wrap ∧ ¬first ∧ 0 < colOffset
        ∧ (st.cols : Int) < colOffset + (fIM.width : Int) * word.length then
      (setCursor st 0 (st.cursory + (fIM.height : Int) + st.lineSpacing), (0 : Int))
    else (st, colOffset)
  let word2 := if ¬isLast ∨ word.length = 0 then word ++ [' '] else word
  word2.foldl (drawStringChar fIM wrap) acc2

/-- The word loop of `drawString` (`first` tracks `wi == 0`, the last word
is the one with an empty remainder). -/
def drawStringWords (fIM : FontIM) (wrap : Bool) :
    List (List Char) → Bool → (DisplayState × Int) → DisplayState × Int
  | [], _, acc => acc
  | w :: rest, first, acc =>
    drawStringWords fIM wrap rest false
      (drawStringWord fIM wrap first (rest = []) w acc)

/-- `Display.drawString(str, fontIM, wrap)`. -/
def drawString (st : DisplayState) (str : List Char) (fIM : FontIM)
    (wrap : Bool) : DisplayState :=
  (drawStringWords fIM wrap (splitSpaces str) true (st, st.cursorx)).1


/-- Counterexample to C7 as stated: with a 4-column display, the cursor at
column 3 and a one-character word of glyph width 2 (so
`colOffset + width * length = 5 > 4` and the column is nonzero), the claim
(which includes the first word) requires a line break before drawing; the
code's `wi &&` guard never wraps the first word, so the glyph is drawn at
column 3 of the original line (buffer byte 3 flips from 0 to 255). -/
theorem c7_counterexample :
    ((mkDisplay 4 8 0).cols : Int) < 3 + 2 * 1
    ∧ (0 : Int) < (setCursor (mkDisplay 4 8 0) 3 0).cursorx
    ∧ getByte (drawString (setCursor (mkDisplay 4 8 0) 3 0) ['A']
        (fontToImageMap ⟨2, 8, ['A'], [0xFF, 0xFF]⟩ true) true).buffer 3 = some 255
    ∧ getByte (setCursor (mkDisplay 4 8 0) 3 0).buffer 3 = some 0 := by
  refine ⟨by decide, by decide, by decide, by decide⟩

/-- C7 (amended): for every word other than the first, when wrapping is
enabled, the running column is nonzero and the word's worst-case width
overflows the display, the remaining word processing is identical to
processing from the wrapped position (column 0, row advanced by
`glyphHeight + lineSpacing`) — the line break happens before any character
of the word is drawn. -/
theorem c7_wrap_before_word (fIM : FontIM) (st : DisplayState) (colOffset : Int)
    (w : List Char) (rest : List (List Char))
    (hcol : 0 < colOffset)
    (hover : (st.cols : Int) < colOffset + (fIM.width : Int) * w.length) :
    drawStringWords fIM true (w :: rest) false (st, colOffset)
      = drawStringWords fIM true (w :: rest) false
          (setCursor st 0 (st.cursory + (fIM.height : Int) + st.lineSpacing), 0) := by
  show drawStringWords fIM true rest false
      (drawStringWord fIM true false (rest = []) w (st, colOffset))
    = drawStringWords fIM true rest false
      (drawStringWord fIM true false (rest = []) w
        (setCursor st 0 (st.cursory + (fIM.height : Int) + st.lineSpacing), 0))
  congr 1
  simp [drawStringWord, hcol, hover]

/-- Witness for C7: a second word of three glyphs at column 3 on an
8-column display wraps before drawing. -/
theorem c7_wrap_before_word_witness :
    drawStringWords (fontToImageMap ⟨2, 8, ['A'], [0xFF, 0xFF]⟩ true) true
        [['A', 'A', 'A']] false (mkDisplay 8 16 0, 3)
      = drawStringWords (fontToImageMap ⟨2, 8, ['A'], [0xFF, 0xFF]⟩ true) true
          [['A', 'A', 'A']] false
          (setCursor (mkDisplay 8 16 0) 0
            ((mkDisplay 8 16 0).cursory
              + ((fontToImageMap ⟨2, 8, ['A'], [0xFF, 0xFF]⟩ true).height : Int)
              + (mkDisplay 8 16 0).lineSpacing), 0) :=
  c7_wrap_before_word (fontToImageMap ⟨2, 8, ['A'], [0xFF, 0xFF]⟩ true)
    (mkDisplay 8 16 0) 3 ['A', 'A', 'A'] [] (by decide) (by decide)


theorem drawPixel1_clipped (st : DisplayState) (p : Int × Int × Int)
    (h : clipped st (some p.1) (some p.2.1) = true) : drawPixel1 st p = st := by
  rw [drawPixel1, if_pos h]

theorem drawPixels_clipped_skip (st : DisplayState) (p : Int × Int × Int)
    (ps : List (Int × Int × Int)) (h : clipped st (some p.1) (some p.2.1) = true) :
    drawPixels st (p :: ps) = drawPixels st ps := by
  show List.foldl drawPixel1 (drawPixel1 st p) ps = _
  rw [drawPixel1_clipped st p h]
  rfl

theorem drawPixels_noop (st : DisplayState)
    (Hxy : ∀ x y : Int, clipped st (some x) (some y) = true)
    (ps : List (Int × Int × Int)) : drawPixels st ps = st := by
  induction ps with
  | nil => rfl
  | cons p t ih =>
    rw [drawPixels_clipped_skip st p t (Hxy p.1 p.2.1), ih]

theorem drawLine_noop (st : DisplayState)
    (Hxy : ∀ x y : Int, clipped st (some x) (some y) = true)
    (qx0 qy0 qx1 qy1 : ℚ) (c : Int) : drawLine st qx0 qy0 qx1 qy1 c = st :=
  drawPixels_noop st Hxy _

theorem drawFillRect_noop (st : DisplayState)
    (Hxy : ∀ x y : Int, clipped st (some x) (some y) = true)
    (x y w h : ℚ) (c : Int) : drawFillRect st x y w h c = st := by
  rw [drawFillRect]
  generalize List.range (Int.toNat ⌈w⌉) = l
  induction l with
  | nil => rfl
  | cons j t ih =>
    rw [List.foldl_cons, drawLine_noop st Hxy _ _ _ _ c, ih]

theorem drawImage_noop (st : DisplayState)
    (Hcol : ∀ x : Int, clipped st (some x) none = true)
    (dx dy : Int) (img : ImageT) : drawImage st dx dy img = st := by
  rw [drawImage]
  suffices h : ∀ (xs : List Nat) (b : JSVal) (o : Int),
      List.foldl (drawImageColStep img dx dy) (st, b, o) xs = (st, b, o) by
    rw [h]
  intro xs
  induction xs with
  | nil => intro b o; rfl
  | cons x t ih =>
    intro b o
    rw [List.foldl_cons]
    have hstep : drawImageColStep img dx dy (st, b, o) x = (st, b, o) := by
      rw [drawImageColStep]
      simp [Hcol (dx + (x : Int))]
    rw [hstep, ih]

theorem drawStringChar_noop (fIM : FontIM) (wrap : Bool) (st : DisplayState)
    (c : Int) (ch : Char)
    (Hxy : ∀ x y : Int, clipped st (some x) (some y) = true)
    (Hcol : ∀ x : Int, clipped st (some x) none = true) :
    ∃ a b : Int, (drawStringChar fIM wrap (st, c) ch).1 = setCursor st a b := by
  rw [drawStringChar]
  by_cases hnl : ch = Char.ofNat 10
  · rw [if_pos hnl]
    exact ⟨0, st.cursory + (fIM.height : Int) + st.lineSpacing, rfl⟩
  · rw [if_neg hnl]
    match hg : glyphFor fIM ch with
    | none =>
      refine ⟨st.cursorx, st.cursory, ?_⟩
      show st = setCursor st st.cursorx st.cursory
      rfl
    | some charImage =>
      simp only []
      rw [drawImage_noop st Hcol]
      by_cases htr : charImage.channels ≠ 2 ∧ charImage.channels ≠ 4
      · rw [if_pos htr, drawFillRect_noop st Hxy, drawFillRect_noop st Hxy]
        by_cases hwr : wrap ∧ (st.cols : Int) - (fIM.width : Int)
            ≤ c + (charImage.width : Int) + st.letterSpacing
        · rw [if_pos hwr]
          exact ⟨0, st.cursory + (fIM.height : Int) + st.lineSpacing, rfl⟩
        · rw [if_neg hwr]
          exact ⟨c + (charImage.width : Int) + st.letterSpacing, st.cursory, rfl⟩
      · rw [if_neg htr]
        by_cases hwr : wrap ∧ (st.cols : Int) - (fIM.width : Int)
            ≤ c + (charImage.width : Int) + st.letterSpacing
        · rw [if_pos hwr]
          exact ⟨0, st.cursory + (fIM.height : Int) + st.lineSpacing, rfl⟩
        · rw [if_neg hwr]
          exact ⟨c + (charImage.width : Int) + st.letterSpacing, st.cursory, rfl⟩

theorem drawStringChars_noop (fIM : FontIM) (wrap : Bool) (st : DisplayState)
    (Hxy : ∀ x y : Int, clipped st (some x) (some y) = true)
    (Hcol : ∀ x : Int, clipped st (some x) none = true) :
    ∀ (cs : List Char) (a b c : Int),
      ∃ a2 b2 c2, cs.foldl (drawStringChar fIM wrap) (setCursor st a b, c)
        = (setCursor st a2 b2, c2) := by
  intro cs
  induction cs with
  | nil => intro a b c; exact ⟨a, b, c, rfl⟩
  | cons ch t ih =>
    intro a b c
    rw [List.foldl_cons]
    have Hxy2 : ∀ x y : Int, clipped (setCursor st a b) (some x) (some y) = true := Hxy
    have Hcol2 : ∀ x : Int, clipped (setCursor st a b) (some x) none = true := Hcol
    obtain ⟨a2, b2, hs⟩ := drawStringChar_noop fIM wrap (setCursor st a b) c ch Hxy2 Hcol2
    have hcollapse : setCursor (setCursor st a b) a2 b2 = setCursor st a2 b2 := rfl
    rw [hcollapse] at hs
    have hpair : drawStringChar fIM wrap (setCursor st a b, c) ch
        = (setCursor st a2 b2, (drawStringChar fIM wrap (setCursor st a b, c) ch).2) := by
      rw [← hs]
    rw [hpair]
    exact ih a2 b2 _

theorem drawString_noop (st : DisplayState)
    (Hxy : ∀ x y : Int, clipped st (some x) (some y) = true)
    (Hcol : ∀ x : Int, clipped st (some x) none = true)
    (str : List Char) (fIM : FontIM) (wrap : Bool) :
    (drawString st str fIM wrap).buffer = st.buffer
    ∧ (drawString st str fIM wrap).dirtyBytes = st.dirtyBytes := by
  rw [drawString]
  suffices h : ∀ (ws : List (List Char)) (first : Bool) (a b c : Int),
      ∃ a2 b2 c2, drawStringWords fIM wrap ws first (setCursor st a b, c)
        = (setCursor st a2 b2, c2) by
    have h0 : (st, st.cursorx) = ((setCursor st st.cursorx st.cursory : DisplayState), st.cursorx) := rfl
    rw [h0]
    obtain ⟨a2, b2, c2, hres⟩ := h (splitSpaces str) true st.cursorx st.cursory st.cursorx
    rw [hres]
    exact ⟨rfl, rfl⟩
  intro ws
  induction ws with
  | nil => intro first a b c; exact ⟨a, b, c, rfl⟩
  | cons w rest ih =>
    intro first a b c
    rw [drawStringWords]
    have hword : ∃ a2 b2 c2, drawStringWord fIM wrap first (rest = []) w (setCursor st a b, c)
        = (setCursor st a2 b2, c2) := by
      rw [drawStringWord]
      by_cases hw : wrap ∧ ¬first ∧ 0 < c
          ∧ ((setCursor st a b).cols : Int) < c + (fIM.width : Int) * w.length
      · rw [if_pos hw]
        have := drawStringChars_noop fIM wrap st Hxy Hcol
          (if ¬(rest = []) ∨ w.length = 0 then w ++ [' '] else w) 0
          ((setCursor st a b).cursory + (fIM.height : Int) + (setCursor st a b).lineSpacing) 0
        simpa using this
      · rw [if_neg hw]
        exact drawStringChars_noop fIM wrap st Hxy Hcol _ a b c
    obtain ⟨a2, b2, c2, hword⟩ := hword
    rw [hword]
    exact ih false a2 b2 c2


/-- Counterexample to C1 as stated: install a clip predicate that always
answers `false`.  It replaces the bounds check entirely, so drawing the
out-of-range pixel `(4, 0)` on a 4-column display is not rejected: the
(oversized) buffer byte at offset 4 flips from 0 to 1 and a dirty entry
`(0, 4) := 1` appears, although the coordinate is outside
`[0, columns) x [0, rows)`. -/
theorem c1_counterexample :
    (((mkDisplay 4 8 0).cols : Int) ≤ 4)
    ∧ getByte (drawPixels { mkDisplay 4 8 0 with
        clippedMethod := some (fun _ _ => false) } [(4, 0, 1)]).buffer 4 = some 1
    ∧ getByte (mkDisplay 4 8 0).buffer 4 = some 0
    ∧ lookupDirty (drawPixels { mkDisplay 4 8 0 with
        clippedMethod := some (fun _ _ => false) } [(4, 0, 1)]).dirtyBytes 0 4 = some 1
    ∧ lookupDirty (mkDisplay 4 8 0).dirtyBytes 0 4 = none := by
  refine ⟨by decide, by decide, by decide, by decide, by decide⟩

/-- C1 (amended): a coordinate rejected by the effective clip check — the
installed predicate when present, otherwise the bounds check — is never
written: `drawPixels` skips such a pixel outright, and when the effective
check rejects every coordinate, each of the five drawing operations leaves
the buffer and the dirty set untouched (drawing raises no error: every
operation is total). -/
theorem c1_clipped_coordinates_never_written (st : DisplayState) :
    (∀ (p : Int × Int × Int) (ps : List (Int × Int × Int)),
      clipped st (some p.1) (some p.2.1) = true →
      drawPixels st (p :: ps) = drawPixels st ps)
    ∧ ((∀ ox oy : Option Int, ox.isSome ∨ oy.isSome → clipped st ox oy = true) →
        (∀ ps, drawPixels st ps = st)
        ∧ (∀ (qx0 qy0 qx1 qy1 : ℚ) (c : Int), drawLine st qx0 qy0 qx1 qy1 c = st)
        ∧ (∀ (x y w h : ℚ) (c : Int), drawFillRect st x y w h c = st)
        ∧ (∀ (dx dy : Int) (img : ImageT), drawImage st dx dy img = st)
        ∧ (∀ (str : List Char) (fIM : FontIM) (wrap : Bool),
            (drawString st str fIM wrap).buffer = st.buffer
            ∧ (drawString st str fIM wrap).dirtyBytes = st.dirtyBytes)) := by
  constructor
  · intro p ps h
    exact drawPixels_clipped_skip st p ps h
  · intro H
    have Hxy : ∀ x y : Int, clipped st (some x) (some y) = true :=
      fun x y => H (some x) (some y) (Or.inl rfl)
    have Hcol : ∀ x : Int, clipped st (some x) none = true :=
      fun x => H (some x) none (Or.inl rfl)
    exact ⟨drawPixels_noop st Hxy,
      drawLine_noop st Hxy,
      drawFillRect_noop st Hxy,
      drawImage_noop st Hcol,
      fun str fIM wrap => drawString_noop st Hxy Hcol str fIM wrap⟩

/-- Witness for C1: on a 0x0 display the default bounds check rejects every
coordinate, and all five drawing operations leave the state untouched. -/
theorem c1_clipped_coordinates_never_written_witness :
    drawPixels (mkDisplay 0 0 0) [(5, 6, 1), (2, 3, 0)] = mkDisplay 0 0 0
    ∧ drawLine (mkDisplay 0 0 0) 0 0 3 3 1 = mkDisplay 0 0 0
    ∧ drawFillRect (mkDisplay 0 0 0) 0 0 2 2 1 = mkDisplay 0 0 0
    ∧ drawImage (mkDisplay 0 0 0) 0 0 ⟨1, 8, 1, [255, 255, 255, 255, 255, 255, 255, 255]⟩
        = mkDisplay 0 0 0
    ∧ (drawString (mkDisplay 0 0 0) ['A']
        (fontToImageMap ⟨2, 8, ['A'], [255, 255]⟩ false) false).buffer
        = (mkDisplay 0 0 0).buffer := by
  have H : ∀ ox oy : Option Int, ox.isSome ∨ oy.isSome →
      clipped (mkDisplay 0 0 0) ox oy = true := by
    intro ox oy hxy
    match ox, oy with
    | some x, _ =>
      simp [clipped, mkDisplay]
      omega
    | none, some y =>
      simp [clipped, mkDisplay]
      omega
    | none, none => simp at hxy
  have h := (c1_clipped_coordinates_never_written (mkDisplay 0 0 0)).2 H
  exact ⟨h.1 _, h.2.1 0 0 3 3 1, h.2.2.1 0 0 2 2 1, h.2.2.2.1 0 0 _,
    (h.2.2.2.2 ['A'] (fontToImageMap ⟨2, 8, ['A'], [255, 255]⟩ false) false).1⟩

end Oled
